import Mathlib

/-!
Asset browser (`backup/scripts.js`): catalog mapping, filtering, pagination, previews.

A shallow embedding of the pure logic of `scripts.js`.  JavaScript strings are
modelled as lists of characters, arrays as lists, and the DOM fragments built by
the preview functions as plain data (rows of cells, a flag for the note).
-/

namespace AssetBrowser

/-- JavaScript strings, as lists of characters. -/
abbrev Str := List Char

def PREVIEW_CHAR_LIMIT : Nat := 8000
def PREVIEW_LINE_LIMIT : Nat := 120
def CHUNK_SIZE : Nat := 500
def MAP_BATCH : Nat := 800
def TABLE_ROW_LIMIT : Nat := 20
def TABLE_COL_LIMIT : Nat := 10

/-! ## String primitives of the host language -/

/-- `String.prototype.toLowerCase`, on the ASCII letters (the only letters the
extension table and the examples use); other characters are left as they are. -/
def toLowerCase (s : Str) : Str := s.map Char.toLower

/-- The characters `String.prototype.trim` strips: ECMAScript WhiteSpace and
LineTerminator code points. -/
def isTrimChar (c : Char) : Bool :=
  decide (c.toNat ∈ [9, 10, 11, 12, 13, 32, 160, 5760, 8232, 8233, 8239, 8287, 12288, 65279])
    || (decide (8192 ≤ c.toNat) && decide (c.toNat ≤ 8202))

/-- `String.prototype.trim`. -/
def trim (s : Str) : Str := ((s.dropWhile isTrimChar).reverse.dropWhile isTrimChar).reverse

/-- `hay.includes(needle)`: some suffix of `hay` starts with `needle`. -/
def includes : Str → Str → Bool
  | [], needle => needle.isPrefixOf []
  | h :: hs, needle => needle.isPrefixOf (h :: hs) || includes hs needle

/-- `s.split(d)` for a one-character separator `d`. -/
def split (d : Char) : Str → List Str
  | [] => [[]]
  | c :: cs =>
    if c = d then [] :: split d cs
    else
      match split d cs with
      | [] => [[c]]
      | l :: ls => (c :: l) :: ls

/-- `arr.pop()` on an array of strings, read as a value: the last element. -/
def pop (parts : List Str) : Str := parts.getLastD []

/-- `arr.slice(start, end)` for natural indices. -/
def slice {α : Type} (xs : List α) (start stop : Nat) : List α := (xs.take stop).drop start

/-- `s.split(/\r?\n/)`: the separator is a line feed, with the carriage return
right before it when there is one. -/
def splitLines : Str → List Str
  | [] => [[]]
  | [c] => if c = '\n' then [[], []] else [[c]]
  | c :: d :: rest =>
    if c = '\n' then [] :: splitLines (d :: rest)
    else if c = '\r' ∧ d = '\n' then [] :: splitLines rest
    else
      match splitLines (d :: rest) with
      | [] => [[c]]
      | l :: ls => (c :: l) :: ls

/-- `lines.join(sep)`. -/
def join (sep : Str) (parts : List Str) : Str := sep.intercalate parts

/-! ## `normalizePath`, `formatSize`, `detectType` -/

/-- `p.replace(/\\\\/g, "/")`: every pair of adjacent backslashes, found left to
right without overlap, becomes one forward slash. -/
def replaceBackslashPairs : Str → Str
  | [] => []
  | [c] => [c]
  | c :: d :: rest =>
    if c = '\\' ∧ d = '\\' then '/' :: replaceBackslashPairs rest
    else c :: replaceBackslashPairs (d :: rest)

/-- `p.replace(/\\/g, "/")`: every backslash becomes a forward slash. -/
def replaceBackslashes (p : Str) : Str := p.map (fun c => if c = '\\' then '/' else c)

/-- `normalizePath = (p) => p.replace(/\\\\/g, "/").replace(/\\/g, "/")`. -/
def normalizePath (p : Str) : Str := replaceBackslashes (replaceBackslashPairs p)

/-- The unit table of `formatSize`. -/
def units : List Str := ["B".toList, "KB".toList, "MB".toList, "GB".toList]

/-- Number of binary digits of `m`, by halving (`fuel` bounds the halvings). -/
def bitLengthAux : Nat → Nat → Nat
  | 0, _ => 0
  | fuel + 1, m => if m = 0 then 0 else bitLengthAux fuel (m / 2) + 1

/-- Number of binary digits of `m`. -/
def bitLength (m : Nat) : Nat := bitLengthAux m m

/-- The Number value of a natural number `m` below `2 ^ 1024`: the nearest double,
the one with the even significand on a tie.  A natural number is a double exactly
when `roundToDouble m = m` (every natural number below `2 ^ 53` is). -/
def roundToDouble (m : Nat) : Nat :=
  let e := bitLength m - 53
  let q := m / 2 ^ e
  let r := m % 2 ^ e
  if 2 * r < 2 ^ e ∨ (2 * r = 2 ^ e ∧ q % 2 = 0) then q * 2 ^ e else (q + 1) * 2 ^ e

/-- The pairs `(s, n)` of `Number::toString` for a given digit count `k`: `s` has
`k` decimal digits and `s * 10 ^ (n - k)` has Number value `x`.  Of all such `s`
the nearest to `x` is next below or next above `x / 10 ^ (n - k)`, and `n` is the
number of digits of `x` or one more. -/
def digitCandidates (x k : Nat) : List (Nat × Nat) :=
  let d := (Nat.toDigits 10 x).length
  [(x / 10 ^ (d - k), d), (x / 10 ^ (d - k) + 1, d),
   (x / 10 ^ (d + 1 - k), d + 1), (x / 10 ^ (d + 1 - k) + 1, d + 1)].filter
    (fun sn => decide (10 ^ (k - 1) ≤ sn.1 ∧ sn.1 < 10 ^ k
      ∧ roundToDouble (sn.1 * 10 ^ (sn.2 - k)) = x))

/-- Distance of two natural numbers. -/
def distance (a b : Nat) : Nat := (a - b) + (b - a)

/-- Of two pairs `(s, n)` the one whose `s * 10 ^ (n - k)` is closer to `x`, the
one with the even `s` when they are equally close. -/
def closer (x k : Nat) (a b : Nat × Nat) : Nat × Nat :=
  let da := distance (a.1 * 10 ^ (a.2 - k)) x
  let db := distance (b.1 * 10 ^ (b.2 - k)) x
  if db < da ∨ (db = da ∧ b.1 % 2 = 0 ∧ a.1 % 2 ≠ 0) then b else a

/-- The closest of a list of pairs, when there is one. -/
def closest (x k : Nat) : List (Nat × Nat) → Option (Nat × Nat)
  | [] => none
  | a :: rest => some (rest.foldl (closer x k) a)

/-- The `(s, k, n)` of `Number::toString`: the least digit count `k`, from `k` on
(`fuel` bounds the search), that has a candidate, with the closest candidate. -/
def shortestDigits (x : Nat) : Nat → Nat → Option (Nat × Nat × Nat)
  | 0, _ => none
  | fuel + 1, k =>
    match closest x k (digitCandidates x k) with
    | some sn => some (sn.1, k, sn.2)
    | none => shortestDigits x fuel (k + 1)

/-- `Number::toString(x)` for an integer-valued double `x >= 10 ^ 21`, where the
result is in exponential notation: the digits of `s` with a point after the first
when there are several, `e+`, and `n - 1`.  (The search always succeeds on a
double, with all its digits at the latest.) -/
def numberToString (x : Nat) : Str :=
  match shortestDigits x (Nat.toDigits 10 x).length 1 with
  | none => Nat.toDigits 10 x
  | some (s, k, n) =>
    let ds := Nat.toDigits 10 s
    (if k = 1 then ds else ds.take 1 ++ '.' :: ds.drop 1) ++ "e+".toList
      ++ Nat.toDigits 10 (n - 1)

/-- `x.toFixed(fractionDigits)` for the Number `x = num / den`, the quotient of
two naturals being itself a double (`den > 0`), following the ECMAScript steps:
if `x >= 10 ^ 21` the result is `Number::toString(x)`; otherwise `n` is the integer
nearest to `x * 10 ^ fractionDigits` (the larger one on a tie), written in decimal,
left-padded with zeros to `fractionDigits + 1` digits and split by a point before
the last `fractionDigits` digits. -/
def toFixed (num den fractionDigits : Nat) : Str :=
  if 10 ^ 21 * den ≤ num then numberToString (num / den)
  else
    let n := (2 * num * 10 ^ fractionDigits + den) / (2 * den)
    let m := Nat.toDigits 10 n
    if fractionDigits = 0 then m
    else
      let m := List.replicate (fractionDigits + 1 - m.length) '0' ++ m
      m.take (m.length - fractionDigits) ++ '.' :: m.drop (m.length - fractionDigits)

/-- The constant `exp` of `formatSize`:
`Math.min(Math.floor(Math.log(bytes) / Math.log(1024)), units.length - 1)`, for a
positive integer `bytes`, with the floor of the quotient of the two logarithms
taken as the exact floor of the base-1024 logarithm. -/
def sizeExponent (bytes : Nat) : Nat := min (Nat.log 1024 bytes) (units.length - 1)

/-- `formatSize`.  `bytes` is the value of the Number the function receives, a
natural number that is a double; dividing a double by `Math.pow(1024, exp)`, a
power of two not above it, gives the exact quotient, again a double. -/
def formatSize (bytes : Nat) : Str :=
  if bytes = 0 then "0 B".toList
  else
    let exp := sizeExponent bytes
    toFixed bytes (1024 ^ exp) (if exp = 0 then 0 else 1) ++ " ".toList ++ units.getD exp []

/-- `detectType`. -/
def detectType (path : Str) : Str :=
  let ext := toLowerCase (pop (split '.' path))
  if ext = "pdf".toList then "pdf".toList
  else if ext ∈ ["mp4".toList, "avi".toList, "mov".toList, "webm".toList] then "video".toList
  else if ext ∈ ["m4a".toList, "mp3".toList, "wav".toList] then "audio".toList
  else if ext ∈ ["csv".toList, "tsv".toList] then "table".toList
  else if ext ∈ ["txt".toList, "log".toList] then "text".toList
  else if ext ∈ ["xls".toList, "xlsx".toList] then "spreadsheet".toList
  else if ext ∈ ["dat".toList, "opt".toList] then "data".toList
  else "file".toList

/-! ## `mapManifestInBatches` -/

/-- An element of the manifest array: `{ path, size }`. -/
structure RawEntry where
  path : Str
  size : Nat
deriving DecidableEq, Repr

/-- An element of `state.mapped`. -/
structure Entry where
  id : Nat
  path : Str
  name : Str
  size : Nat
  sizeLabel : Str
  type : Str
deriving DecidableEq, Repr

/-- The object pushed onto `state.mapped` for index `i` and raw element `r`. -/
def mapEntry (i : Nat) (r : RawEntry) : Entry :=
  let path := normalizePath r.path
  { id := i
    path := path
    name := pop (split '/' path)
    size := r.size
    sizeLabel := formatSize r.size
    type := detectType path }

/-- The loop `for (let i = idx; i < end; i++) state.mapped.push(...)` of one
`step()`, started at `i` with `count = end - i` iterations to go.  Reading
`data[i]` past the end of the array cannot happen, because
`end <= data.length`; that branch leaves the array as it is. -/
def batchLoop (data : List RawEntry) : Nat → Nat → List Entry → List Entry
  | _, 0, mapped => mapped
  | i, count + 1, mapped =>
    match data[i]? with
    | none => mapped
    | some r => batchLoop data (i + 1) count (mapped ++ [mapEntry i r])

/-- The chain of `step()` calls, each scheduled by the one before through
`setTimeout(step, 0)`, with batch size `batch` in place of `MAP_BATCH`.  `fuel`
bounds the number of calls; the result is `state.mapped` at the moment
`applyFilter()` is called, or `none` when the fuel is used up before that. -/
def runSteps (batch : Nat) (data : List RawEntry) : Nat → Nat → List Entry → Option (List Entry)
  | 0, _, _ => none
  | fuel + 1, idx, mapped =>
    let stop := min (idx + batch) data.length
    let mapped := batchLoop data idx (stop - idx) mapped
    if stop < data.length then runSteps batch data fuel stop mapped else some mapped

/-- `mapManifestInBatches(data)` with batch size `batch`: `state.mapped = []`,
`idx = 0`, then `step()`. -/
def mapManifestInBatchesWith (batch : Nat) (data : List RawEntry) (fuel : Nat) :
    Option (List Entry) :=
  runSteps batch data fuel 0 []

/-- `mapManifestInBatches(data)` as written, with `MAP_BATCH`. -/
def mapManifestInBatches (data : List RawEntry) (fuel : Nat) : Option (List Entry) :=
  mapManifestInBatchesWith MAP_BATCH data fuel

/-- The unbatched map the specification compares with: entry `i` of the catalog
is built from raw entry `i`. -/
def mapUnbatched (data : List RawEntry) : List Entry :=
  data.enum.map (fun ir => mapEntry ir.1 ir.2)

/-! ## Filter state, `applyFilter`, the scroll handler -/

/-- The fields of `state` the list logic reads and writes (`selected` and
`showAll` belong to the preview). -/
structure State where
  mapped : List Entry
  filteredAll : List Entry
  filtered : List Entry
  limited : Bool
deriving DecidableEq, Repr

/-- The `state` object literal. -/
def initialState : State :=
  { mapped := [], filteredAll := [], filtered := [], limited := true }

/-- The predicate passed to `state.mapped.filter` in `applyFilter`. -/
def matchesQuery (query : Str) (file : Entry) : Bool :=
  includes (toLowerCase file.name) query || includes (toLowerCase file.path) query

/-- `applyFilter` with page size `chunk` in place of `CHUNK_SIZE`; `value` is
`refs.fileSearch.value`. -/
def applyFilterWith (chunk : Nat) (value : Str) (st : State) : State :=
  let query := trim (toLowerCase value)
  let filteredAll := st.mapped.filter (matchesQuery query)
  let limit := min chunk filteredAll.length
  { st with
    filteredAll := filteredAll
    filtered := slice filteredAll 0 limit
    limited := decide (filteredAll.length > limit) }

/-- `applyFilter` as written. -/
def applyFilter (value : Str) (st : State) : State := applyFilterWith CHUNK_SIZE value st

/-- The scroll handler of `fileList` when the list is scrolled near its bottom,
with page size `chunk` in place of `CHUNK_SIZE`. -/
def scrollNearBottomWith (chunk : Nat) (st : State) : State :=
  if !st.limited then st
  else
    let next := slice st.filteredAll st.filtered.length (st.filtered.length + chunk)
    if next.length ≠ 0 then
      let filtered := st.filtered ++ next
      { st with filtered := filtered, limited := decide (filtered.length < st.filteredAll.length) }
    else st

/-- The scroll handler as written. -/
def scrollNearBottom (st : State) : State := scrollNearBottomWith CHUNK_SIZE st

/-- What can happen to `state` between two renderings of the list: the mapping
loop replaces or extends `state.mapped`, the search box fires `input` with its
current text, or the list is scrolled near its bottom. -/
inductive Event where
  | setMapped (mapped : List Entry)
  | query (value : Str)
  | scroll
deriving DecidableEq, Repr

/-- One event applied to the state. -/
def handle (st : State) : Event → State
  | .setMapped mapped => { st with mapped := mapped }
  | .query value => applyFilter value st
  | .scroll => scrollNearBottom st

/-- A sequence of events applied to the state, first event first. -/
def run (st : State) (events : List Event) : State := events.foldl handle st

/-- Whether the event calls `applyFilter`. -/
def Event.isQuery : Event → Bool
  | .query _ => true
  | _ => false

/-! ## `fetchText`, `renderTablePreview`, the table branch of `previewFile` -/

/-- The object `fetchText` resolves to. -/
structure TextResult where
  body : Str
  truncated : Bool
deriving DecidableEq, Repr

/-- `fetchText(path, full)`, given the text `raw` the fetch of `path` returned. -/
def fetchText (raw : Str) (full : Bool) : TextResult :=
  if full then { body := raw, truncated := false }
  else
    let lines := splitLines raw
    let limited := join ['\n'] (slice lines 0 PREVIEW_LINE_LIMIT)
    let limited :=
      if limited.length > PREVIEW_CHAR_LIMIT then slice limited 0 PREVIEW_CHAR_LIMIT else limited
    let truncated := decide (raw.length > limited.length) || decide (lines.length > PREVIEW_LINE_LIMIT)
    { body := limited, truncated := truncated }

/-- The container `renderTablePreview` builds: the cells of every `tr` of the
table, and whether the truncation note was appended. -/
structure TablePreview where
  rows : List (List Str)
  note : Bool
deriving DecidableEq, Repr

/-- The callback `(r) => r.trim().length` of the row filter, as a truth value. -/
def nonBlank (r : Str) : Bool := decide ((trim r).length ≠ 0)

/-- The rows `renderTablePreview` works on:
`csvText.split(/\r?\n/).filter((r) => r.trim().length)`. -/
def tableLines (csvText : Str) : List Str := (splitLines csvText).filter nonBlank

/-- `renderTablePreview(csvText, delimiter, full)`. -/
def renderTablePreview (csvText : Str) (delimiter : Char) (full : Bool) : TablePreview :=
  let rows := tableLines csvText
  let maxRows := if full then rows.length else min TABLE_ROW_LIMIT rows.length
  { rows := (rows.take maxRows).map (fun r => slice (split delimiter r) 0 TABLE_COL_LIMIT)
    note := !full && decide (rows.length > maxRows) }

/-- The delimiter the table branch passes on:
`file.path.endsWith(".tsv") ? "\t" : ","`. -/
def delimiterOf (path : Str) : Char := if ".tsv".toList.isSuffixOf path then '\t' else ','

/-- The table branch of `previewFile(file)`: `raw` is the fetched content of
`file.path`, `showAll` is `state.showAll`. -/
def previewTable (path : Str) (raw : Str) (showAll : Bool) : TablePreview :=
  let text := fetchText raw showAll
  renderTablePreview text.body (delimiterOf path) showAll

/-! ## The specification's side of the comparisons -/

/-- The extension table of the specification (section 4.1): lower-cased extension
and the preview category it maps to. -/
def extensionTable : List (Str × Str) :=
  [("pdf".toList, "pdf".toList),
   ("mp4".toList, "video".toList), ("avi".toList, "video".toList),
   ("mov".toList, "video".toList), ("webm".toList, "video".toList),
   ("m4a".toList, "audio".toList), ("mp3".toList, "audio".toList),
   ("wav".toList, "audio".toList),
   ("csv".toList, "table".toList), ("tsv".toList, "table".toList),
   ("txt".toList, "text".toList), ("log".toList, "text".toList),
   ("xls".toList, "spreadsheet".toList), ("xlsx".toList, "spreadsheet".toList),
   ("dat".toList, "data".toList), ("opt".toList, "data".toList)]

/-- The category the specification gives a lower-cased extension: its entry in the
table, `file` when it has none. -/
def typeOfExtension (ext : Str) : Str :=
  match extensionTable.find? (fun kv => decide (kv.1 = ext)) with
  | some kv => kv.2
  | none => "file".toList

/-- The closed set of preview categories of the specification (section 3). -/
def categories : List Str :=
  ["pdf".toList, "video".toList, "audio".toList, "table".toList, "text".toList,
   "spreadsheet".toList, "data".toList, "file".toList]

/-- A line less the carriage return that ends it, when one does: what
`split(/\r?\n/)` gives for a line that a line feed follows. -/
def stripCR (l : Str) : Str := if l.getLast? = some '\r' then l.dropLast else l

/-- What the claim on table previews says of the rows shown, for a delimiter and
the list of lines they come from: there are `min 20 (number of lines)` rows, and
row `i` has `min 10 (field count)` cells, the first fields of line `i` (of line
`i` less the carriage return ending it, for a line that ends in one). -/
def ShowsRows (rows : List (List Str)) (delimiter : Char) (lines : List Str) : Prop :=
  rows.length = min TABLE_ROW_LIMIT lines.length ∧
  ∀ i : Nat, i < min TABLE_ROW_LIMIT lines.length →
    ∃ (line : Str) (cells : List Str),
      lines[i]? = some line ∧ rows[i]? = some cells ∧
      cells.length = min TABLE_COL_LIMIT (split delimiter line).length ∧
      (cells = (split delimiter line).take TABLE_COL_LIMIT ∨
        (line.getLast? = some '\r' ∧
          cells = (split delimiter line.dropLast).take TABLE_COL_LIMIT))

/-- The table of the specification's example (section 8): a CSV of 30 rows of 15
one-character columns. -/
def sampleCsv : Str := join ['\n'] (List.replicate 30 (join [','] (List.replicate 15 ['x'])))

/-! ## Path normalisation -/

theorem replaceBackslashes_length (p : Str) : (replaceBackslashes p).length = p.length := by
  simp [replaceBackslashes]

theorem not_mem_replaceBackslashes (p : Str) : '\\' ∉ replaceBackslashes p := by
  simp only [replaceBackslashes, List.mem_map, not_exists, not_and]
  intro c _
  by_cases h : c = '\\'
  · simp [h]
  · simp [h]

theorem replaceBackslashPairs_length_le (p : Str) :
    (replaceBackslashPairs p).length ≤ p.length := by
  induction p using replaceBackslashPairs.induct with
  | case1 => simp [replaceBackslashPairs]
  | case2 c => simp [replaceBackslashPairs]
  | case3 c d rest h ih =>
    simp only [replaceBackslashPairs, h, and_self, if_true, List.length_cons]
    omega
  | case4 c d rest h ih =>
    simp only [replaceBackslashPairs, h, if_false, List.length_cons] at ih ⊢
    omega

theorem replaceBackslashPairs_of_no_pair (p : Str) (h : ¬ ['\\', '\\'] <:+: p) :
    replaceBackslashPairs p = p := by
  induction p using replaceBackslashPairs.induct with
  | case1 => simp [replaceBackslashPairs]
  | case2 c => simp [replaceBackslashPairs]
  | case3 c d rest hc ih =>
    exfalso
    apply h
    obtain ⟨rfl, rfl⟩ := hc
    exact ⟨[], rest, by simp⟩
  | case4 c d rest hc ih =>
    simp only [replaceBackslashPairs, hc, if_false]
    congr 1
    apply ih
    intro hin
    apply h
    obtain ⟨s, t, hst⟩ := hin
    exact ⟨c :: s, t, by simp [← hst]⟩

theorem replaceBackslashPairs_length_lt (p : Str) (h : ['\\', '\\'] <:+: p) :
    (replaceBackslashPairs p).length < p.length := by
  induction p using replaceBackslashPairs.induct with
  | case1 => simp at h
  | case2 c =>
    obtain ⟨s, t, hst⟩ := h
    have := congrArg List.length hst
    simp at this
    omega
  | case3 c d rest hc ih =>
    simp only [replaceBackslashPairs, hc, and_self, if_true, List.length_cons]
    have := replaceBackslashPairs_length_le rest
    omega
  | case4 c d rest hc ih =>
    simp only [replaceBackslashPairs, hc, if_false, List.length_cons]
    have hin : ['\\', '\\'] <:+: d :: rest := by
      obtain ⟨s, t, hst⟩ := h
      cases s with
      | nil =>
        simp at hst
        exact absurd ⟨hst.1.symm, hst.2.1.symm⟩ hc
      | cons a s =>
        simp at hst
        exact ⟨s, t, by simpa using hst.2⟩
    have := ih hin
    simp only [List.length_cons] at this
    omega

theorem replaceBackslashPairs_append_pair (pre suf : Str) (h : '\\' ∉ pre) :
    replaceBackslashPairs (pre ++ '\\' :: '\\' :: suf) = pre ++ '/' :: replaceBackslashPairs suf := by
  induction pre with
  | nil => simp [replaceBackslashPairs]
  | cons c cs ih =>
    have hc : c ≠ '\\' := fun e => h (by simp [e])
    have hcs : '\\' ∉ cs := fun e => h (by simp [e])
    cases cs with
    | nil =>
      have := ih hcs
      simp only [List.nil_append] at this
      simp [replaceBackslashPairs, hc, this]
    | cons d ds =>
      have := ih hcs
      simp only [List.cons_append] at this ⊢
      simp [replaceBackslashPairs, hc, this]

theorem replaceBackslashes_of_not_mem (p : Str) (h : '\\' ∉ p) : replaceBackslashes p = p := by
  unfold replaceBackslashes
  conv_rhs => rw [← List.map_id p]
  apply List.map_congr_left
  intro c hc
  have : c ≠ '\\' := fun e => h (e ▸ hc)
  simp [this]

/-! ## Splitting on a character -/

theorem split_ne_nil (d : Char) (s : Str) : split d s ≠ [] := by
  cases s with
  | nil => simp [split]
  | cons c cs =>
    simp only [split]
    split_ifs
    · simp
    · split <;> simp

theorem split_of_not_mem (d : Char) (s : Str) (h : d ∉ s) : split d s = [s] := by
  induction s with
  | nil => simp [split]
  | cons c cs ih =>
    have hc : c ≠ d := fun e => h (by simp [e])
    have hcs : d ∉ cs := fun e => h (by simp [e])
    simp [split, hc, ih hcs]

theorem split_append_sep (d : Char) (pre suf : Str) :
    split d (pre ++ d :: suf) = split d pre ++ split d suf := by
  induction pre with
  | nil => simp [split]
  | cons c cs ih =>
    by_cases hc : c = d
    · simp [split, hc, ih]
    · cases hs : split d cs with
      | nil => exact absurd hs (split_ne_nil d cs)
      | cons l ls => simp [split, hc, ih, hs]

theorem pop_split_append_sep (d : Char) (pre suf : Str) (h : d ∉ suf) :
    pop (split d (pre ++ d :: suf)) = suf := by
  rw [split_append_sep, split_of_not_mem d suf h]
  simp [pop]

/-! ## Type detection -/

theorem detectType_eq_typeOfExtension (path : Str) :
    detectType path = typeOfExtension (toLowerCase (pop (split '.' path))) := by
  unfold detectType
  generalize toLowerCase (pop (split '.' path)) = ext
  simp only []
  split_ifs with h1 h2 h3 h4 h5 h6 h7
  · subst h1; decide
  · simp only [List.mem_cons, List.mem_singleton, List.not_mem_nil, or_false] at h2
    rcases h2 with rfl | rfl | rfl | rfl <;> decide
  · simp only [List.mem_cons, List.mem_singleton, List.not_mem_nil, or_false] at h3
    rcases h3 with rfl | rfl | rfl <;> decide
  · simp only [List.mem_cons, List.mem_singleton, List.not_mem_nil, or_false] at h4
    rcases h4 with rfl | rfl <;> decide
  · simp only [List.mem_cons, List.mem_singleton, List.not_mem_nil, or_false] at h5
    rcases h5 with rfl | rfl <;> decide
  · simp only [List.mem_cons, List.mem_singleton, List.not_mem_nil, or_false] at h6
    rcases h6 with rfl | rfl <;> decide
  · simp only [List.mem_cons, List.mem_singleton, List.not_mem_nil, or_false] at h7
    rcases h7 with rfl | rfl <;> decide
  · simp only [List.mem_cons, List.mem_singleton, List.not_mem_nil, or_false, not_or] at *
    have key : extensionTable.find? (fun kv => decide (kv.1 = ext)) = none := by
      rw [List.find?_eq_none]
      intro kv hkv
      simp only [extensionTable, List.mem_cons, List.mem_singleton, List.not_mem_nil,
        or_false] at hkv
      simp only [decide_eq_true_eq]
      intro hk
      rcases hkv with rfl | rfl | rfl | rfl | rfl | rfl | rfl | rfl | rfl | rfl | rfl | rfl | rfl
        | rfl | rfl | rfl <;> simp_all
    simp [typeOfExtension, key]

theorem typeOfExtension_mem_categories (ext : Str) : typeOfExtension ext ∈ categories := by
  unfold typeOfExtension
  split
  · next kv hkv =>
    have hmem := List.mem_of_find?_eq_some hkv
    simp only [extensionTable, List.mem_cons, List.mem_singleton, List.not_mem_nil,
      or_false] at hmem
    rcases hmem with rfl | rfl | rfl | rfl | rfl | rfl | rfl | rfl | rfl | rfl | rfl | rfl | rfl
      | rfl | rfl | rfl <;> decide
  · decide

/-! ## Claims on `normalizePath` and `detectType` -/

/-- C8, as stated, fails: on the four characters `a`, backslash, backslash, `b`
the first replacement of `normalizePath` turns the pair of backslashes into one
slash, so the result `a/b` is one character shorter than the input and is not
the character-by-character conversion `a//b`. -/
theorem normalizePath_backslash_pair_shorter :
    normalizePath ['a', '\\', '\\', 'b'] = ['a', '/', 'b'] ∧
    (normalizePath ['a', '\\', '\\', 'b']).length ≠ ['a', '\\', '\\', 'b'].length ∧
    normalizePath ['a', '\\', '\\', 'b']
      ≠ ['a', '\\', '\\', 'b'].map (fun c => if c = '\\' then '/' else c) := by
  decide

/-- C8, amended: for every path `p`, `normalizePath p` contains no backslash and is
at most as long as `p`; it has the length of `p` exactly when `p` has no two
adjacent backslashes, and then it is `p` with every backslash converted to a
forward slash and every other character unchanged; the first pair of adjacent
backslashes of a path becomes a single forward slash.  The path `a\b\c.txt`
(single backslashes) normalises to `a/b/c.txt`, whose last segment is `c.txt`. -/
theorem normalizePath_spec (p : Str) :
    '\\' ∉ normalizePath p ∧
    (normalizePath p).length ≤ p.length ∧
    ((normalizePath p).length = p.length ↔ ¬ ['\\', '\\'] <:+: p) ∧
    (¬ ['\\', '\\'] <:+: p →
      normalizePath p = p.map (fun c => if c = '\\' then '/' else c)) ∧
    (∀ pre suf : Str, '\\' ∉ pre →
      normalizePath (pre ++ '\\' :: '\\' :: suf) = pre ++ '/' :: normalizePath suf) ∧
    normalizePath "a\\b\\c.txt".toList = "a/b/c.txt".toList ∧
    pop (split '/' (normalizePath "a\\b\\c.txt".toList)) = "c.txt".toList := by
  refine ⟨not_mem_replaceBackslashes _, ?_, ?_, ?_, ?_, by decide, by decide⟩
  · rw [normalizePath, replaceBackslashes_length]
    exact replaceBackslashPairs_length_le p
  · rw [normalizePath, replaceBackslashes_length]
    constructor
    · intro h hin
      have := replaceBackslashPairs_length_lt p hin
      omega
    · intro h
      rw [replaceBackslashPairs_of_no_pair p h]
  · intro h
    rw [normalizePath, replaceBackslashPairs_of_no_pair p h, replaceBackslashes]
  · intro pre suf h
    rw [normalizePath, replaceBackslashPairs_append_pair pre suf h, normalizePath]
    simp only [replaceBackslashes, List.map_append, List.map_cons]
    have := replaceBackslashes_of_not_mem pre h
    simp only [replaceBackslashes] at this
    rw [this]
    simp

/-- The amended C8 at the path `a\b\c.txt`. -/
theorem normalizePath_spec_witness :
    ¬ ['\\', '\\'] <:+: "a\\b\\c.txt".toList ∧
    normalizePath "a\\b\\c.txt".toList
      = "a\\b\\c.txt".toList.map (fun c => if c = '\\' then '/' else c) :=
  ⟨by decide, (normalizePath_spec "a\\b\\c.txt".toList).2.2.2.1 (by decide)⟩

/-- C10: for a path `pre ++ "." ++ suf` whose part `suf` after the last `.` has no
`.`, `detectType` is the specification's table looked up at the lower-cased
`suf` (`file` when it has no entry), so it depends on `suf` only and only up to
letter case, and it is one of the eight categories; `report.CSV` gives `table`,
`clip.MP4` gives `video`, `notes.txt` gives `text`, `archive.zip` gives `file`. -/
theorem detectType_spec (pre suf : Str) (h : '.' ∉ suf) :
    detectType (pre ++ '.' :: suf) = typeOfExtension (toLowerCase suf) ∧
    (∀ pre2 suf2 : Str, '.' ∉ suf2 → toLowerCase suf2 = toLowerCase suf →
      detectType (pre2 ++ '.' :: suf2) = detectType (pre ++ '.' :: suf)) ∧
    detectType (pre ++ '.' :: suf) ∈ categories ∧
    detectType "report.CSV".toList = "table".toList ∧
    detectType "clip.MP4".toList = "video".toList ∧
    detectType "notes.txt".toList = "text".toList ∧
    detectType "archive.zip".toList = "file".toList := by
  have key : ∀ a b : Str, '.' ∉ b →
      detectType (a ++ '.' :: b) = typeOfExtension (toLowerCase b) := by
    intro a b hb
    rw [detectType_eq_typeOfExtension, pop_split_append_sep '.' a b hb]
  refine ⟨key pre suf h, ?_, ?_, by decide, by decide, by decide, by decide⟩
  · intro pre2 suf2 h2 hlow
    rw [key pre2 suf2 h2, key pre suf h, hlow]
  · rw [key pre suf h]
    exact typeOfExtension_mem_categories _

/-- C10 at the path `report.CSV`. -/
theorem detectType_spec_witness :
    '.' ∉ "CSV".toList ∧
    detectType ("report".toList ++ '.' :: "CSV".toList) = typeOfExtension (toLowerCase "CSV".toList) :=
  ⟨by decide, (detectType_spec "report".toList "CSV".toList (by decide)).1⟩

/-! ## Decimal digits and `toFixed` -/

theorem toDigitsCore_eq (b : Nat) (hb : 2 ≤ b) :
    ∀ n fuel ds, n < fuel → Nat.toDigitsCore b fuel n ds = Nat.toDigits b n ++ ds := by
  intro n
  induction n using Nat.strong_induction_on with
  | _ n ih =>
    intro fuel ds hf
    obtain ⟨f, rfl⟩ : ∃ f, fuel = f + 1 := ⟨fuel - 1, by omega⟩
    by_cases h0 : n / b = 0
    · simp [Nat.toDigits, Nat.toDigitsCore, h0]
    · have hlt : n / b < n := Nat.div_lt_self (by
        rcases Nat.eq_zero_or_pos n with h | h
        · simp [h] at h0
        · exact h) hb
      have e1 : Nat.toDigitsCore b (f + 1) n ds
          = Nat.toDigits b (n / b) ++ (Nat.digitChar (n % b) :: ds) := by
        rw [Nat.toDigitsCore]
        simp only [h0, if_false]
        exact ih (n / b) hlt f _ (by omega)
      have e2 : Nat.toDigits b n = Nat.toDigits b (n / b) ++ [Nat.digitChar (n % b)] := by
        rw [Nat.toDigits, Nat.toDigitsCore]
        simp only [h0, if_false]
        exact ih (n / b) hlt n _ hlt
      rw [e1, e2]; simp

theorem toDigits_of_lt (b n : Nat) (h : n < b) : Nat.toDigits b n = [Nat.digitChar n] := by
  simp [Nat.toDigits, Nat.toDigitsCore, Nat.div_eq_of_lt h, Nat.mod_eq_of_lt h]

theorem toDigits_of_ge (b n : Nat) (hb : 2 ≤ b) (h : b ≤ n) :
    Nat.toDigits b n = Nat.toDigits b (n / b) ++ [Nat.digitChar (n % b)] := by
  have h0 : n / b ≠ 0 := by
    have : 0 < n / b := Nat.div_pos h (by omega)
    omega
  have hlt : n / b < n := Nat.div_lt_self (by omega) hb
  rw [Nat.toDigits, Nat.toDigitsCore]
  simp only [h0, if_false]
  exact toDigitsCore_eq b hb (n / b) n _ hlt

theorem toFixed_zero_digits (num : Nat) (hx : num < 10 ^ 21) :
    toFixed num 1 0 = Nat.toDigits 10 num := by
  have : (2 * num * 10 ^ 0 + 1) / (2 * 1) = num := by
    simp only [pow_zero, mul_one]
    omega
  have hnot : ¬ 10 ^ 21 * 1 ≤ num := by omega
  unfold toFixed
  simp only [hnot, this, if_true, if_false]

theorem toFixed_one_digit (num den t : Nat) (ht : (2 * num * 10 ^ 1 + den) / (2 * den) = t)
    (h : 10 ≤ t) (hx : num < 10 ^ 21 * den) :
    toFixed num den 1 = Nat.toDigits 10 (t / 10) ++ '.' :: Nat.toDigits 10 (t % 10) := by
  have hd : Nat.toDigits 10 t = Nat.toDigits 10 (t / 10) ++ [Nat.digitChar (t % 10)] :=
    toDigits_of_ge 10 t (by omega) h
  have hlen : 1 ≤ (Nat.toDigits 10 (t / 10)).length := by
    have hq : 1 ≤ t / 10 := by omega
    rcases Nat.lt_or_ge (t / 10) 10 with hlt | hge
    · rw [toDigits_of_lt 10 _ hlt]; simp
    · rw [toDigits_of_ge 10 _ (by omega) hge]; simp
  have hlast : Nat.toDigits 10 (t % 10) = [Nat.digitChar (t % 10)] :=
    toDigits_of_lt 10 _ (Nat.mod_lt _ (by omega))
  have hnot : ¬ 10 ^ 21 * den ≤ num := by omega
  unfold toFixed
  simp only [hnot, one_ne_zero, if_false, ht]
  rw [hd, hlast]
  generalize Nat.toDigits 10 (t / 10) = ds at hlen
  have hpad : 1 + 1 - (ds ++ [Nat.digitChar (t % 10)]).length = 0 := by
    simp only [List.length_append, List.length_singleton]
    omega
  have hcut : (ds ++ [Nat.digitChar (t % 10)]).length - 1 = ds.length := by simp
  rw [hpad]
  simp only [List.replicate_zero, List.nil_append, hcut, List.take_left, List.drop_left]

/-! ## `formatSize` -/

theorem sizeExponent_eq (n : Nat) : sizeExponent n = min (Nat.log 1024 n) 3 := by
  simp [sizeExponent, units]

theorem sizeExponent_of_bounds (n e : Nat) (h1 : 1024 ^ e ≤ n) (h2 : n < 1024 ^ (e + 1))
    (he : e ≤ 3) : sizeExponent n = e := by
  rw [sizeExponent_eq, Nat.log_eq_of_pow_le_of_lt_pow h1 h2]
  omega

theorem sizeExponent_pow_le (n : Nat) (hn : 0 < n) : 1024 ^ sizeExponent n ≤ n := by
  rw [sizeExponent_eq]
  exact Nat.pow_le_of_le_log hn.ne' (Nat.min_le_left _ _)

theorem le_sizeExponent (n j : Nat) (hj : j ≤ 3) (h : 1024 ^ j ≤ n) : j ≤ sizeExponent n := by
  rw [sizeExponent_eq]
  exact Nat.le_min.2 ⟨Nat.le_log_of_pow_le (by norm_num) h, hj⟩

theorem sizeExponent_eq_zero_iff (n : Nat) : sizeExponent n = 0 ↔ n < 1024 := by
  rw [sizeExponent_eq]
  constructor
  · intro h
    have h0 : Nat.log 1024 n = 0 := by omega
    rcases Nat.log_eq_zero_iff.1 h0 with h | h
    · exact h
    · omega
  · intro h
    rw [Nat.log_of_lt h]
    rfl

theorem formatSize_pos (n : Nat) (hn : 0 < n) :
    formatSize n
      = toFixed n (1024 ^ sizeExponent n) (if sizeExponent n = 0 then 0 else 1)
        ++ ' ' :: units.getD (sizeExponent n) [] := by
  unfold formatSize
  simp [hn.ne']

theorem sizeExponent_of_ge (n : Nat) (h : 1024 ^ 3 ≤ n) : sizeExponent n = 3 := by
  have h1 := le_sizeExponent n 3 (le_refl _) h
  have h2 : sizeExponent n ≤ 3 := by
    rw [sizeExponent_eq]
    exact Nat.min_le_right _ _
  omega

theorem lt_bound_of_lt (n : Nat) (hb : n < 10 ^ 21 * 1024 ^ 3) :
    n < 10 ^ 21 * 1024 ^ sizeExponent n := by
  rcases Nat.lt_or_ge n (1024 ^ 3) with h | h
  · have hlog : Nat.log 1024 n < 3 := by
      rcases Nat.eq_zero_or_pos n with h0 | h0
      · simp [h0]
      · exact Nat.log_lt_of_lt_pow h0.ne' h
    have he : sizeExponent n = Nat.log 1024 n := by
      rw [sizeExponent_eq]
      omega
    rw [he]
    have h1 : n < 1024 ^ (Nat.log 1024 n).succ := Nat.lt_pow_succ_log_self (by norm_num) n
    rw [Nat.pow_succ] at h1
    have h2 : 1024 ^ Nat.log 1024 n * 1024 ≤ 10 ^ 21 * 1024 ^ Nat.log 1024 n := by
      rw [Nat.mul_comm]
      exact Nat.mul_le_mul_right _ (by norm_num)
    omega
  · rw [sizeExponent_of_ge n h]
    exact hb

theorem formatSize_bytes (n : Nat) (hn : 0 < n) (h : n < 1024) :
    formatSize n = Nat.toDigits 10 n ++ " B".toList := by
  have he : sizeExponent n = 0 := (sizeExponent_eq_zero_iff n).2 h
  rw [formatSize_pos n hn, he]
  simp only [pow_zero, if_true]
  rw [toFixed_zero_digits n (by omega)]
  rfl

theorem formatSize_scaled (n : Nat) (h : 1024 ≤ n) (hb : n < 10 ^ 21 * 1024 ^ 3) :
    10 ≤ (20 * n + 1024 ^ sizeExponent n) / (2 * 1024 ^ sizeExponent n) ∧
    formatSize n
      = Nat.toDigits 10 ((20 * n + 1024 ^ sizeExponent n) / (2 * 1024 ^ sizeExponent n) / 10)
        ++ '.' :: Nat.toDigits 10
            ((20 * n + 1024 ^ sizeExponent n) / (2 * 1024 ^ sizeExponent n) % 10)
        ++ ' ' :: units.getD (sizeExponent n) [] := by
  have hn : 0 < n := by omega
  have he : sizeExponent n ≠ 0 := by
    rw [Ne, sizeExponent_eq_zero_iff]
    omega
  have hD : 0 < 1024 ^ sizeExponent n := Nat.pow_pos (by norm_num)
  have hle := sizeExponent_pow_le n hn
  have ht : 10 ≤ (20 * n + 1024 ^ sizeExponent n) / (2 * 1024 ^ sizeExponent n) := by
    rw [Nat.le_div_iff_mul_le (by omega)]
    omega
  refine ⟨ht, ?_⟩
  rw [formatSize_pos n hn]
  simp only [he, if_false]
  rw [toFixed_one_digit n (1024 ^ sizeExponent n) _ (by
    have : 2 * n * 10 ^ 1 = 20 * n := by ring
    rw [this]) ht (lt_bound_of_lt n hb)]

set_option maxRecDepth 100000 in
/-- C9, as stated, fails: `2 ^ 110` is a double, its unit is GB (`e = 3`) and its
scaled value `2 ^ 80` is at least `10 ^ 21`, where `toFixed` answers
`Number::toString`, in exponential notation; so `formatSize (2 ^ 110)` is
`1.2089258196146292e+24 GB` and not the scaled value with one decimal place,
`1208925819614629174706176.0 GB`. -/
theorem formatSize_exponential_above_bound :
    roundToDouble (2 ^ 110) = 2 ^ 110 ∧
    sizeExponent (2 ^ 110) = 3 ∧
    formatSize (2 ^ 110) = "1.2089258196146292e+24 GB".toList ∧
    formatSize (2 ^ 110) ≠ "1208925819614629174706176.0 GB".toList ∧
    Nat.toDigits 10 ((20 * 2 ^ 110 + 1024 ^ 3) / (2 * 1024 ^ 3) / 10)
        ++ '.' :: Nat.toDigits 10 ((20 * 2 ^ 110 + 1024 ^ 3) / (2 * 1024 ^ 3) % 10)
        ++ " GB".toList
      = "1208925819614629174706176.0 GB".toList := by
  have he : sizeExponent (2 ^ 110) = 3 := sizeExponent_of_ge _ (by norm_num)
  have hf : formatSize (2 ^ 110) = "1.2089258196146292e+24 GB".toList := by
    rw [formatSize_pos _ (by norm_num), he]
    decide
  refine ⟨by decide, he, hf, ?_, by decide⟩
  rw [hf]
  decide

/-- C9, amended: `formatSize 0` is `0 B`.  For a positive byte count `n` whose
value in GB is below `10 ^ 21` (`n < 10 ^ 21 * 1024 ^ 3`), with
`e = min (floor (log_1024 n)) 3`: the scaled value `n / 1024 ^ e` is at least 1
and `e` is the largest index of the unit table for which it is; the result is
`(n / 1024 ^ e).toFixed(0 or 1)` (0 digits exactly when `e = 0`), a space and the
`e`-th unit.  So below 1024 it is the decimal digits of `n` and ` B`, and from
1024 on it is `t / 10`, a point, the single digit `t % 10`, a space and the unit,
where `t` is the integer nearest to `10 * n / 1024 ^ e` (the larger on a tie).
`formatSize 1024 = "1.0 KB"`, `formatSize 1536 = "1.5 KB"`,
`formatSize 1073741824 = "1.0 GB"`. -/
theorem formatSize_spec (n : Nat) (hn : 0 < n) (hb : n < 10 ^ 21 * 1024 ^ 3) :
    formatSize 0 = "0 B".toList ∧
    sizeExponent n = min (Nat.log 1024 n) 3 ∧
    1024 ^ sizeExponent n ≤ n ∧
    (∀ j, j ≤ 3 → 1024 ^ j ≤ n → j ≤ sizeExponent n) ∧
    formatSize n
      = toFixed n (1024 ^ sizeExponent n) (if sizeExponent n = 0 then 0 else 1)
        ++ ' ' :: units.getD (sizeExponent n) [] ∧
    (n < 1024 → formatSize n = Nat.toDigits 10 n ++ " B".toList) ∧
    (1024 ≤ n → ∃ t : Nat,
      2 * 1024 ^ sizeExponent n * t ≤ 20 * n + 1024 ^ sizeExponent n ∧
      20 * n + 1024 ^ sizeExponent n < 2 * 1024 ^ sizeExponent n * (t + 1) ∧
      formatSize n
        = Nat.toDigits 10 (t / 10) ++ '.' :: Nat.toDigits 10 (t % 10)
          ++ ' ' :: units.getD (sizeExponent n) []) ∧
    formatSize 1024 = "1.0 KB".toList ∧
    formatSize 1536 = "1.5 KB".toList ∧
    formatSize 1073741824 = "1.0 GB".toList := by
  refine ⟨by decide, sizeExponent_eq n, sizeExponent_pow_le n hn,
    fun j hj h => le_sizeExponent n j hj h, formatSize_pos n hn,
    formatSize_bytes n hn, ?_, ?_, ?_, ?_⟩
  · intro h
    have hD : 0 < 2 * 1024 ^ sizeExponent n := by
      have : 0 < 1024 ^ sizeExponent n := Nat.pow_pos (by norm_num)
      omega
    refine ⟨(20 * n + 1024 ^ sizeExponent n) / (2 * 1024 ^ sizeExponent n), ?_, ?_,
      (formatSize_scaled n h hb).2⟩
    · exact Nat.mul_div_le _ _
    · exact Nat.lt_mul_div_succ _ hD
  · rw [formatSize_pos 1024 (by norm_num),
      sizeExponent_of_bounds 1024 1 (by norm_num) (by norm_num) (by norm_num)]
    decide
  · rw [formatSize_pos 1536 (by norm_num),
      sizeExponent_of_bounds 1536 1 (by norm_num) (by norm_num) (by norm_num)]
    decide
  · rw [formatSize_pos 1073741824 (by norm_num),
      sizeExponent_of_bounds 1073741824 3 (by norm_num) (by norm_num) (by norm_num)]
    decide

/-- The amended C9 at `n = 1536`. -/
theorem formatSize_spec_witness :
    (0 < 1536 ∧ 1536 < 10 ^ 21 * 1024 ^ 3) ∧
    sizeExponent 1536 = min (Nat.log 1024 1536) 3 ∧ 1024 ^ sizeExponent 1536 ≤ 1536 :=
  ⟨by decide, (formatSize_spec 1536 (by decide) (by decide)).2.1,
    (formatSize_spec 1536 (by decide) (by decide)).2.2.1⟩

/-! ## Batched mapping -/

theorem mapUnbatched_length (data : List RawEntry) :
    (mapUnbatched data).length = data.length := by
  simp [mapUnbatched]

theorem mapUnbatched_getElem (data : List RawEntry) (i : Nat) (h : i < data.length) :
    (mapUnbatched data)[i]? = some (mapEntry i data[i]) := by
  simp [mapUnbatched, List.getElem?_enum, h]

theorem batchLoop_eq (data : List RawEntry) (count : Nat) :
    ∀ (i : Nat) (mapped : List Entry), i + count ≤ data.length →
      batchLoop data i count mapped
        = mapped ++ ((mapUnbatched data).drop i).take count := by
  induction count with
  | zero => intro i mapped _; simp [batchLoop]
  | succ k ih =>
    intro i mapped h
    have hi : i < data.length := by omega
    have hget : data[i]? = some data[i] := List.getElem?_eq_getElem hi
    have hiU : i < (mapUnbatched data).length := by rw [mapUnbatched_length]; exact hi
    have hU : (mapUnbatched data)[i] = mapEntry i data[i] := by
      have := mapUnbatched_getElem data i hi
      rw [List.getElem?_eq_getElem hiU] at this
      exact Option.some.inj this
    rw [batchLoop, hget]
    simp only []
    rw [ih (i + 1) _ (by omega), List.drop_eq_getElem_cons hiU, hU]
    simp

theorem take_append_take_drop {α : Type} (xs : List α) (a b : Nat) (h : a ≤ b) :
    xs.take a ++ (xs.drop a).take (b - a) = xs.take b := by
  have hb : b = a + (b - a) := by omega
  conv_rhs => rw [hb, List.take_add]

theorem runSteps_eq (batch : Nat) (hB : 1 ≤ batch) (data : List RawEntry) (fuel : Nat) :
    ∀ idx : Nat, idx ≤ data.length → data.length - idx < fuel →
      runSteps batch data fuel idx ((mapUnbatched data).take idx) = some (mapUnbatched data) := by
  induction fuel with
  | zero => intro idx _ h; omega
  | succ f ih =>
    intro idx hidx hfuel
    have hstop : idx ≤ min (idx + batch) data.length := by omega
    have hloop : batchLoop data idx (min (idx + batch) data.length - idx)
        ((mapUnbatched data).take idx) = (mapUnbatched data).take (min (idx + batch) data.length) := by
      rw [batchLoop_eq data _ idx _ (by omega)]
      exact take_append_take_drop _ _ _ hstop
    rw [runSteps]
    simp only [hloop]
    split_ifs with hlt
    · exact ih _ (by omega) (by omega)
    · have : data.length ≤ min (idx + batch) data.length := by omega
      rw [List.take_of_length_le (by rw [mapUnbatched_length]; exact this)]

theorem runSteps_sound (batch : Nat) (data : List RawEntry) (fuel : Nat) :
    ∀ (idx : Nat) (result : List Entry), idx ≤ data.length →
      runSteps batch data fuel idx ((mapUnbatched data).take idx) = some result →
      result = mapUnbatched data := by
  induction fuel with
  | zero => intro idx result _ h; simp [runSteps] at h
  | succ f ih =>
    intro idx result hidx hrun
    have hstop : idx ≤ min (idx + batch) data.length := by omega
    have hloop : batchLoop data idx (min (idx + batch) data.length - idx)
        ((mapUnbatched data).take idx) = (mapUnbatched data).take (min (idx + batch) data.length) := by
      rw [batchLoop_eq data _ idx _ (by omega)]
      exact take_append_take_drop _ _ _ hstop
    rw [runSteps] at hrun
    simp only [hloop] at hrun
    split_ifs at hrun with hlt
    · exact ih _ result (by omega) hrun
    · have : data.length ≤ min (idx + batch) data.length := by omega
      rw [List.take_of_length_le (by rw [mapUnbatched_length]; exact this)] at hrun
      exact (Option.some.inj hrun).symm

/-- C1: for every raw manifest `data` and batch size `B >= 1`, the chain of
`step()` calls ends (any fuel above `data.length` is enough) and leaves in
`state.mapped` the unbatched index-wise map of `data`, whatever `B` is; a run that
ends at all ends with that catalog.  The catalog has `data.length` entries and
its `i`-th entry has `id = i`, `path = normalizePath` of the raw path, `name`
the last `/`-segment of that path, the raw `size`, `sizeLabel = formatSize size`
and `type = detectType path`. -/
theorem mapManifestInBatches_spec (data : List RawEntry) (B : Nat) (hB : 1 ≤ B) :
    (∀ fuel, data.length < fuel →
      mapManifestInBatchesWith B data fuel = some (mapUnbatched data)) ∧
    (∀ fuel result, mapManifestInBatchesWith B data fuel = some result →
      result = mapUnbatched data) ∧
    (mapUnbatched data).length = data.length ∧
    (∀ (i : Nat) (h : i < data.length),
      (mapUnbatched data)[i]? = some
        { id := i
          path := normalizePath data[i].path
          name := pop (split '/' (normalizePath data[i].path))
          size := data[i].size
          sizeLabel := formatSize data[i].size
          type := detectType (normalizePath data[i].path) }) := by
  refine ⟨?_, ?_, mapUnbatched_length data, ?_⟩
  · intro fuel hfuel
    have := runSteps_eq B hB data fuel 0 (Nat.zero_le _) (by omega)
    simpa [mapManifestInBatchesWith] using this
  · intro fuel result hrun
    exact runSteps_sound B data fuel 0 result (Nat.zero_le _)
      (by simpa [mapManifestInBatchesWith] using hrun)
  · intro i h
    rw [mapUnbatched_getElem data i h]
    rfl

/-- C1 on a manifest of three entries mapped in batches of two. -/
theorem mapManifestInBatches_spec_witness :
    1 ≤ 2 ∧
    mapManifestInBatchesWith 2
        [⟨"a\\b.txt".toList, 0⟩, ⟨"c/d.CSV".toList, 1536⟩, ⟨"e.pdf".toList, 7⟩] 4
      = some (mapUnbatched
        [⟨"a\\b.txt".toList, 0⟩, ⟨"c/d.CSV".toList, 1536⟩, ⟨"e.pdf".toList, 7⟩]) :=
  ⟨by decide, (mapManifestInBatches_spec _ 2 (by decide)).1 4 (by decide)⟩

/-! ## Filtering -/

theorem includes_iff (hay needle : Str) : includes hay needle = true ↔ needle <:+: hay := by
  induction hay with
  | nil =>
    cases needle with
    | nil => simp [includes]
    | cons c cs => simp [includes]
  | cons h hs ih =>
    rw [includes, Bool.or_eq_true, ih, List.isPrefixOf_iff_prefix, List.infix_cons_iff]

theorem includes_nil (hay : Str) : includes hay [] = true := by
  rw [includes_iff]
  exact List.nil_infix

theorem matchesQuery_iff (query : Str) (file : Entry) :
    matchesQuery query file = true
      ↔ query <:+: toLowerCase file.name ∨ query <:+: toLowerCase file.path := by
  simp [matchesQuery, includes_iff]

theorem applyFilterWith_filteredAll (chunk : Nat) (value : Str) (st : State) :
    (applyFilterWith chunk value st).filteredAll
      = st.mapped.filter (matchesQuery (trim (toLowerCase value))) := rfl

/-- C2, as stated, fails: with the search text ` a` (a space, then `a`) and a
catalog holding the one file `a.txt`, `applyFilter` trims the query to `a` and keeps
the file, although neither its name nor its path contains ` a`, in any letter
case. -/
theorem applyFilter_trims_query :
    (applyFilter " a".toList
        { mapped := [⟨0, "a.txt".toList, "a.txt".toList, 0, "0 B".toList, "text".toList⟩]
          filteredAll := [], filtered := [], limited := true }).filteredAll
      = [⟨0, "a.txt".toList, "a.txt".toList, 0, "0 B".toList, "text".toList⟩] ∧
    ¬ toLowerCase " a".toList <:+: toLowerCase "a.txt".toList ∧
    [(⟨0, "a.txt".toList, "a.txt".toList, 0, "0 B".toList, "text".toList⟩ : Entry)].filter
        (fun f => includes (toLowerCase f.name) (toLowerCase " a".toList)
          || includes (toLowerCase f.path) (toLowerCase " a".toList))
      = [] := by
  decide

/-- C2, amended: for every catalog `state.mapped` and every search-box text `q`,
`applyFilter` sets `state.filteredAll` to exactly the entries of `state.mapped`, in
catalog order, whose lower-cased name or path contains the query, which is `q`
lower-cased and then trimmed of leading and trailing white space; ids that ascend
in the catalog ascend in the result; when the trimmed query is empty every entry
is kept. -/
theorem applyFilter_spec (st : State) (q : Str) :
    (∀ f : Entry, f ∈ (applyFilter q st).filteredAll ↔
      f ∈ st.mapped ∧
        (trim (toLowerCase q) <:+: toLowerCase f.name
          ∨ trim (toLowerCase q) <:+: toLowerCase f.path)) ∧
    (applyFilter q st).filteredAll
      = st.mapped.filter (fun f => decide
          (trim (toLowerCase q) <:+: toLowerCase f.name
            ∨ trim (toLowerCase q) <:+: toLowerCase f.path)) ∧
    List.Sublist (applyFilter q st).filteredAll st.mapped ∧
    (st.mapped.Pairwise (fun a b => a.id < b.id) →
      (applyFilter q st).filteredAll.Pairwise (fun a b => a.id < b.id)) ∧
    (trim (toLowerCase q) = [] → (applyFilter q st).filteredAll = st.mapped) := by
  have hfa : (applyFilter q st).filteredAll
      = st.mapped.filter (matchesQuery (trim (toLowerCase q))) := rfl
  refine ⟨?_, ?_, ?_, ?_, ?_⟩
  · intro f
    rw [hfa, List.mem_filter, matchesQuery_iff]
  · rw [hfa]
    apply List.filter_congr
    intro f _
    rw [Bool.eq_iff_iff, matchesQuery_iff]
    simp
  · rw [hfa]
    exact List.filter_sublist _
  · intro h
    rw [hfa]
    exact h.sublist (List.filter_sublist _)
  · intro h
    rw [hfa, h, List.filter_eq_self]
    intro f _
    simp [matchesQuery, includes_nil]

/-- The amended C2 at the empty search text over a one-file catalog with ids in
ascending order. -/
theorem applyFilter_spec_witness :
    trim (toLowerCase []) = [] ∧
    (applyFilter []
        { mapped := [⟨0, "a.txt".toList, "a.txt".toList, 0, "0 B".toList, "text".toList⟩]
          filteredAll := [], filtered := [], limited := true }).filteredAll
      = [⟨0, "a.txt".toList, "a.txt".toList, 0, "0 B".toList, "text".toList⟩] :=
  ⟨by decide, (applyFilter_spec _ []).2.2.2.2 (by decide)⟩

/-! ## Pagination -/

theorem take_append_slice {α : Type} (xs : List α) (a n : Nat) :
    xs.take a ++ slice xs a (a + n) = xs.take (a + n) := by
  unfold slice
  have h : xs.take a = (xs.take (a + n)).take a := by
    rw [List.take_take, Nat.min_eq_left (Nat.le_add_right a n)]
  rw [h, List.take_append_drop]

theorem slice_length {α : Type} (xs : List α) (a n : Nat) :
    (slice xs a (a + n)).length = min (a + n) xs.length - a := by
  simp [slice]

theorem slice_zero {α : Type} (xs : List α) (n : Nat) : slice xs 0 n = xs.take n := by
  simp [slice]

/-- What one near-bottom scroll does to a state whose window is a prefix of the
matches: the window becomes the first `min (window + chunk) (matches)` matches,
and the flag is recomputed unless nothing was added. -/
theorem scrollNearBottomWith_filtered (chunk : Nat) (st : State)
    (hpre : st.filtered <+: st.filteredAll)
    (hlim : st.filteredAll.length > st.filtered.length → st.limited = true) :
    (scrollNearBottomWith chunk st).filtered
      = st.filteredAll.take (min st.filteredAll.length (st.filtered.length + chunk)) := by
  have htake : st.filtered = st.filteredAll.take st.filtered.length :=
    List.prefix_iff_eq_take.1 hpre
  have hle : st.filtered.length ≤ st.filteredAll.length := hpre.length_le
  unfold scrollNearBottomWith
  by_cases hl : st.limited = true
  · simp only [hl, Bool.not_true, Bool.false_eq_true, if_false]
    by_cases hnext :
        (slice st.filteredAll st.filtered.length (st.filtered.length + chunk)).length ≠ 0
    · simp only [hnext, ne_eq, not_false_eq_true, if_true]
      conv_lhs => rw [htake]
      rw [List.length_take, Nat.min_eq_left hle, take_append_slice]
      rcases Nat.le_total st.filteredAll.length (st.filtered.length + chunk) with h | h
      · rw [Nat.min_eq_left h, List.take_of_length_le h, List.take_of_length_le (le_refl _)]
      · rw [Nat.min_eq_right h]
    · simp only [hnext, if_false]
      rw [slice_length] at hnext
      have : min st.filteredAll.length (st.filtered.length + chunk) = st.filtered.length := by
        omega
      rw [this]
      exact htake
  · have hl2 : st.limited = false := by simpa using hl
    have hlen : st.filteredAll.length = st.filtered.length := by
      by_contra hne
      have : st.filteredAll.length > st.filtered.length := by omega
      rw [hlim this] at hl2
      exact Bool.noConfusion hl2
    simp only [hl2, Bool.not_false, if_true]
    have : min st.filteredAll.length (st.filtered.length + chunk) = st.filtered.length := by
      omega
    rw [this]
    exact htake

theorem scrollNearBottomWith_limited (chunk : Nat) (st : State)
    (hpre : st.filtered <+: st.filteredAll)
    (hlim : st.limited = true ↔ st.filteredAll.length > st.filtered.length) :
    ((scrollNearBottomWith chunk st).limited = true ↔
      st.filteredAll.length > (scrollNearBottomWith chunk st).filtered.length) := by
  have hle : st.filtered.length ≤ st.filteredAll.length := hpre.length_le
  unfold scrollNearBottomWith
  by_cases hl : st.limited = true
  · simp only [hl, Bool.not_true, Bool.false_eq_true, if_false]
    by_cases hnext :
        (slice st.filteredAll st.filtered.length (st.filtered.length + chunk)).length ≠ 0
    · simp only [hnext, ne_eq, not_false_eq_true, if_true, decide_eq_true_eq]
    · simp only [hnext, if_false]
      exact hlim
  · have hl2 : st.limited = false := by simpa using hl
    simp only [hl2, Bool.not_false, if_true]
    rw [← hlim, hl2]

theorem scrollNearBottomWith_filteredAll (chunk : Nat) (st : State) :
    (scrollNearBottomWith chunk st).filteredAll = st.filteredAll ∧
    (scrollNearBottomWith chunk st).mapped = st.mapped := by
  unfold scrollNearBottomWith
  simp only []
  split_ifs <;> exact ⟨rfl, rfl⟩

/-- C3: for a filter state whose `filtered` is a prefix of `filteredAll` and whose
`limited` is `filteredAll.length > filtered.length`, and a page size `n`, the
near-bottom branch of the scroll handler gives a `filtered` that extends the old
one, is a prefix of `filteredAll` and has length
`min filteredAll.length (filtered.length + n)`; `filteredAll` and the catalog are
untouched, `limited` is recomputed to match, and when `limited` is false the state
is returned unchanged. -/
theorem scrollNearBottom_spec (st : State) (n : Nat)
    (hpre : st.filtered <+: st.filteredAll)
    (hlim : st.limited = decide (st.filteredAll.length > st.filtered.length)) :
    st.filtered <+: (scrollNearBottomWith n st).filtered ∧
    (scrollNearBottomWith n st).filtered <+: st.filteredAll ∧
    (scrollNearBottomWith n st).filtered.length
      = min st.filteredAll.length (st.filtered.length + n) ∧
    (scrollNearBottomWith n st).filteredAll = st.filteredAll ∧
    (scrollNearBottomWith n st).mapped = st.mapped ∧
    ((scrollNearBottomWith n st).limited
      = decide (st.filteredAll.length > (scrollNearBottomWith n st).filtered.length)) ∧
    (st.limited = false → scrollNearBottomWith n st = st) := by
  have hiff : st.limited = true ↔ st.filteredAll.length > st.filtered.length := by
    rw [hlim, decide_eq_true_eq]
  have hf := scrollNearBottomWith_filtered n st hpre hiff.2
  have hle : st.filtered.length ≤ st.filteredAll.length := hpre.length_le
  have htake : st.filtered = st.filteredAll.take st.filtered.length :=
    List.prefix_iff_eq_take.1 hpre
  refine ⟨?_, ?_, ?_, (scrollNearBottomWith_filteredAll n st).1,
    (scrollNearBottomWith_filteredAll n st).2, ?_, ?_⟩
  · rw [hf]
    conv_lhs => rw [htake]
    exact List.take_prefix_take_left _ (by omega)
  · rw [hf]
    exact List.take_prefix _ _
  · rw [hf, List.length_take]
    omega
  · have := scrollNearBottomWith_limited n st hpre hiff
    rw [Bool.eq_iff_iff, decide_eq_true_eq]
    exact this
  · intro h
    simp [scrollNearBottomWith, h]

/-- C3 on a window of one entry out of three, with page size one. -/
theorem scrollNearBottom_spec_witness :
    (scrollNearBottomWith 1
      { mapped := []
        filteredAll := [⟨0, [], [], 0, [], []⟩, ⟨1, [], [], 0, [], []⟩, ⟨2, [], [], 0, [], []⟩]
        filtered := [⟨0, [], [], 0, [], []⟩]
        limited := true }).filtered.length = min 3 (1 + 1) :=
  (scrollNearBottom_spec
    { mapped := []
      filteredAll := [⟨0, [], [], 0, [], []⟩, ⟨1, [], [], 0, [], []⟩, ⟨2, [], [], 0, [], []⟩]
      filtered := [⟨0, [], [], 0, [], []⟩]
      limited := true } 1 (by decide) (by decide)).2.2.1

/-! ## The invariant of the filter state -/

theorem applyFilterWith_invariant (chunk : Nat) (value : Str) (st : State) :
    (applyFilterWith chunk value st).filtered <+: (applyFilterWith chunk value st).filteredAll ∧
    ((applyFilterWith chunk value st).limited = true ↔
      (applyFilterWith chunk value st).filteredAll.length
        > (applyFilterWith chunk value st).filtered.length) := by
  unfold applyFilterWith
  simp only [slice_zero, decide_eq_true_eq, List.length_take]
  refine ⟨List.take_prefix _ _, ?_⟩
  constructor <;> intro h <;> omega

theorem scrollNearBottomWith_weak (chunk : Nat) (st : State)
    (hpre : st.filtered <+: st.filteredAll)
    (hlim : st.filteredAll.length > st.filtered.length → st.limited = true) :
    (scrollNearBottomWith chunk st).filtered <+: (scrollNearBottomWith chunk st).filteredAll ∧
    ((scrollNearBottomWith chunk st).filteredAll.length
        > (scrollNearBottomWith chunk st).filtered.length →
      (scrollNearBottomWith chunk st).limited = true) := by
  have hf := scrollNearBottomWith_filtered chunk st hpre hlim
  refine ⟨?_, ?_⟩
  · rw [hf, (scrollNearBottomWith_filteredAll chunk st).1]
    exact List.take_prefix _ _
  · rw [(scrollNearBottomWith_filteredAll chunk st).1]
    unfold scrollNearBottomWith
    by_cases hl : st.limited = true
    · simp only [hl, Bool.not_true, Bool.false_eq_true, if_false]
      by_cases hnext :
          (slice st.filteredAll st.filtered.length (st.filtered.length + chunk)).length ≠ 0
      · simp only [hnext, ne_eq, not_false_eq_true, if_true, decide_eq_true_eq]
        exact fun h => h
      · simp only [hnext, if_false]
        exact fun _ => hl
    · have hl2 : st.limited = false := by simpa using hl
      simp only [hl2, Bool.not_false, if_true]
      intro h
      rw [← hl2]
      exact hlim h

theorem handle_invariant (st : State) (ev : Event) (seen : Bool)
    (hpre : st.filtered <+: st.filteredAll)
    (hweak : st.filteredAll.length > st.filtered.length → st.limited = true)
    (hseen : seen = true → (st.limited = true ↔ st.filteredAll.length > st.filtered.length)) :
    (handle st ev).filtered <+: (handle st ev).filteredAll ∧
    ((handle st ev).filteredAll.length > (handle st ev).filtered.length →
      (handle st ev).limited = true) ∧
    ((seen || ev.isQuery) = true →
      ((handle st ev).limited = true ↔
        (handle st ev).filteredAll.length > (handle st ev).filtered.length)) := by
  cases ev with
  | setMapped mapped =>
    refine ⟨hpre, hweak, ?_⟩
    intro h
    exact hseen (by simpa [Event.isQuery] using h)
  | query value =>
    have h := applyFilterWith_invariant CHUNK_SIZE value st
    exact ⟨h.1, h.2.2, fun _ => h.2⟩
  | scroll =>
    have h := scrollNearBottomWith_weak CHUNK_SIZE st hpre hweak
    refine ⟨h.1, h.2, ?_⟩
    intro hs
    have hs2 : seen = true := by simpa [Event.isQuery] using hs
    have := scrollNearBottomWith_limited CHUNK_SIZE st hpre (hseen hs2)
    show (scrollNearBottomWith CHUNK_SIZE st).limited = true ↔
      (scrollNearBottomWith CHUNK_SIZE st).filteredAll.length
        > (scrollNearBottomWith CHUNK_SIZE st).filtered.length
    rw [(scrollNearBottomWith_filteredAll CHUNK_SIZE st).1]
    exact this

theorem run_invariant_from (events : List Event) :
    ∀ (st : State) (seen : Bool),
      st.filtered <+: st.filteredAll →
      (st.filteredAll.length > st.filtered.length → st.limited = true) →
      (seen = true → (st.limited = true ↔ st.filteredAll.length > st.filtered.length)) →
      (run st events).filtered <+: (run st events).filteredAll ∧
      ((run st events).filteredAll.length > (run st events).filtered.length →
        (run st events).limited = true) ∧
      ((seen || events.any Event.isQuery) = true →
        ((run st events).limited = true ↔
          (run st events).filteredAll.length > (run st events).filtered.length)) := by
  induction events with
  | nil =>
    intro st seen hpre hweak hseen
    refine ⟨hpre, hweak, ?_⟩
    intro h
    exact hseen (by simpa using h)
  | cons ev rest ih =>
    intro st seen hpre hweak hseen
    have h := handle_invariant st ev seen hpre hweak hseen
    have h2 := ih (handle st ev) (seen || ev.isQuery) h.1 h.2.1 h.2.2
    refine ⟨h2.1, h2.2.1, ?_⟩
    intro hs
    apply h2.2.2
    simpa [Bool.or_assoc] using hs

/-- C4, as stated, fails in the initial state itself (the empty sequence of
events) and after any number of scrolls from it: `limited` is `true` in the
`state` object literal while `filteredAll` and `filtered` are both empty. -/
theorem initialState_limited_without_more :
    (run initialState []).limited = true ∧
    ¬ ((run initialState []).filteredAll.length > (run initialState []).filtered.length) ∧
    (run initialState [Event.scroll, Event.scroll]).limited = true ∧
    ¬ ((run initialState [Event.scroll, Event.scroll]).filteredAll.length
        > (run initialState [Event.scroll, Event.scroll]).filtered.length) := by
  decide

/-- C4, amended: in every state reached from the initial `state` object by a
sequence of changes to `state.mapped`, query changes (`applyFilter`) and near-bottom
scrolls, `filtered` is a prefix of `filteredAll`, and `limited` is true whenever
`filteredAll.length > filtered.length`; once the sequence contains an
`applyFilter`, `limited` is true if and only if
`filteredAll.length > filtered.length`. -/
theorem run_invariant (events : List Event) :
    (run initialState events).filtered <+: (run initialState events).filteredAll ∧
    ((run initialState events).filteredAll.length > (run initialState events).filtered.length →
      (run initialState events).limited = true) ∧
    (events.any Event.isQuery = true →
      ((run initialState events).limited = true ↔
        (run initialState events).filteredAll.length
          > (run initialState events).filtered.length)) := by
  have h := run_invariant_from events initialState false (by simp [initialState])
    (by simp [initialState]) (by simp)
  simpa using h

/-- The amended C4 on a catalog of one file, a query and a scroll. -/
theorem run_invariant_witness :
    [Event.setMapped [⟨0, "a.txt".toList, "a.txt".toList, 0, "0 B".toList, "text".toList⟩],
      Event.query "A".toList, Event.scroll].any Event.isQuery = true ∧
    ((run initialState
        [Event.setMapped [⟨0, "a.txt".toList, "a.txt".toList, 0, "0 B".toList, "text".toList⟩],
          Event.query "A".toList, Event.scroll]).limited = true ↔
      (run initialState
        [Event.setMapped [⟨0, "a.txt".toList, "a.txt".toList, 0, "0 B".toList, "text".toList⟩],
          Event.query "A".toList, Event.scroll]).filteredAll.length
        > (run initialState
        [Event.setMapped [⟨0, "a.txt".toList, "a.txt".toList, 0, "0 B".toList, "text".toList⟩],
          Event.query "A".toList, Event.scroll]).filtered.length) :=
  ⟨by decide, (run_invariant _).2.2 (by decide)⟩

/-! ## Lines of a text -/

theorem splitLines_ne_nil (s : Str) : splitLines s ≠ [] := by
  induction s using splitLines.induct with
  | case1 => simp [splitLines]
  | case2 => simp [splitLines]
  | case3 c hc => simp [splitLines, hc]
  | case4 d rest ih => simp [splitLines]
  | case5 c d rest h1 h2 ih => simp [splitLines, h1, h2]
  | case6 c d rest h1 h2 hs ih => simp [splitLines, h1, h2, hs]
  | case7 c d rest h1 h2 l ls hs ih => simp [splitLines, h1, h2, hs]

theorem splitLines_of_no_lf (l : Str) (h : '\n' ∉ l) : splitLines l = [l] := by
  induction l using splitLines.induct with
  | case1 => simp [splitLines]
  | case2 => exact absurd (List.mem_singleton_self _) h
  | case3 c hc => simp [splitLines, hc]
  | case4 d rest ih => exact absurd (List.mem_cons_self _ _) h
  | case5 c d rest h1 h2 ih => exact absurd (by simp [h2.2]) h
  | case6 c d rest h1 h2 hs ih => exact absurd hs (splitLines_ne_nil _)
  | case7 c d rest h1 h2 l ls hs ih =>
    have hrest : '\n' ∉ d :: rest := fun e => h (List.mem_cons_of_mem _ e)
    simp [splitLines, h1, h2, ih hrest]

theorem splitLines_lf_cons (s : Str) : splitLines ('\n' :: s) = [] :: splitLines s := by
  cases s with
  | nil => simp [splitLines]
  | cons a t => simp [splitLines]

theorem splitLines_append_lf (l s : Str) (h : '\n' ∉ l) (hcr : l.getLast? ≠ some '\r') :
    splitLines (l ++ '\n' :: s) = l :: splitLines s := by
  induction l using splitLines.induct with
  | case1 => simpa using splitLines_lf_cons s
  | case2 => exact absurd (List.mem_singleton_self _) h
  | case3 c hc =>
    have hr : c ≠ '\r' := fun e => hcr (by simp [e])
    simp [splitLines, hc, hr, splitLines_lf_cons]
  | case4 d rest ih => exact absurd (List.mem_cons_self _ _) h
  | case5 c d rest h1 h2 ih => exact absurd (by simp [h2.2]) h
  | case6 c d rest h1 h2 hs ih => exact absurd hs (splitLines_ne_nil _)
  | case7 c d rest h1 h2 l ls hs ih =>
    have hrest : '\n' ∉ d :: rest := fun e => h (List.mem_cons_of_mem _ e)
    have hcr2 : (d :: rest).getLast? ≠ some '\r' := by
      simpa [List.getLast?_cons_cons] using hcr
    have := ih hrest hcr2
    simp only [List.cons_append] at this ⊢
    simp [splitLines, h1, h2, this]

theorem mem_splitLines_no_lf (s : Str) : ∀ l ∈ splitLines s, '\n' ∉ l := by
  induction s using splitLines.induct with
  | case1 => simp [splitLines]
  | case2 => simp [splitLines]
  | case3 c hc =>
    simp [splitLines, hc]
    exact fun e => hc e.symm
  | case4 d rest ih =>
    rw [splitLines_lf_cons]
    intro l hl
    rcases List.mem_cons.1 hl with rfl | hl
    · simp
    · exact ih l hl
  | case5 c d rest h1 h2 ih =>
    simp only [splitLines, h1, h2, if_false, if_true]
    intro l hl
    rcases List.mem_cons.1 hl with rfl | hl
    · simp
    · exact ih l hl
  | case6 c d rest h1 h2 hs ih => exact absurd hs (splitLines_ne_nil _)
  | case7 c d rest h1 h2 a t hs ih =>
    simp only [splitLines, h1, h2, if_false, hs]
    rw [hs] at ih
    intro l hl
    rcases List.mem_cons.1 hl with rfl | hl
    · intro hmem
      rcases List.mem_cons.1 hmem with e | hmem
      · exact h1 e.symm
      · exact ih a (List.mem_cons_self _ _) hmem
    · exact ih l (List.mem_cons_of_mem _ hl)

theorem join_cons_cons (sep a b : Str) (rest : List Str) :
    join sep (a :: b :: rest) = a ++ sep ++ join sep (b :: rest) := by
  simp [join, List.intercalate, List.intersperse]

theorem join_singleton (sep a : Str) : join sep [a] = a := by
  simp [join, List.intercalate, List.intersperse]

theorem splitLines_join (ls : List Str) (hne : ls ≠ [])
    (h : ∀ l ∈ ls, '\n' ∉ l ∧ l.getLast? ≠ some '\r') :
    splitLines (join ['\n'] ls) = ls := by
  induction ls with
  | nil => exact absurd rfl hne
  | cons a rest ih =>
    cases rest with
    | nil =>
      rw [join_singleton]
      exact splitLines_of_no_lf a (h a (List.mem_cons_self _ _)).1
    | cons b rest =>
      have ha := h a (List.mem_cons_self _ _)
      rw [join_cons_cons]
      simp only [List.append_assoc, List.singleton_append]
      rw [splitLines_append_lf a _ ha.1 ha.2,
        ih (by simp) (fun l hl => h l (List.mem_cons_of_mem _ hl))]

theorem join_cons_of_ne_nil (sep a : Str) (rest : List Str) (h : rest ≠ []) :
    join sep (a :: rest) = a ++ sep ++ join sep rest := by
  cases rest with
  | nil => exact absurd rfl h
  | cons b rest => exact join_cons_cons sep a b rest

theorem join_length_cons (sep a : Str) (rest : List Str) :
    (join sep (a :: rest)).length
      = a.length + (if rest = [] then 0 else sep.length + (join sep rest).length) := by
  cases rest with
  | nil => simp [join_singleton]
  | cons b rest => simp [join_cons_cons, Nat.add_assoc]

theorem join_take_length_le (sep : Str) (ls : List Str) :
    ∀ n : Nat, (join sep (ls.take n)).length ≤ (join sep ls).length := by
  induction ls with
  | nil => intro n; simp
  | cons a rest ih =>
    intro n
    cases n with
    | zero => simp [join, List.intercalate]
    | succ n =>
      rw [List.take_succ_cons, join_length_cons, join_length_cons]
      by_cases ht : rest.take n = []
      · simp [ht]
      · have hr : rest ≠ [] := fun e => ht (by simp [e])
        simp only [ht, hr, if_false]
        have := ih n
        omega

theorem join_splitLines_length_le (s : Str) :
    (join ['\n'] (splitLines s)).length ≤ s.length := by
  induction s using splitLines.induct with
  | case1 => decide
  | case2 => decide
  | case3 c hc => simp [splitLines, hc, join_singleton]
  | case4 d rest ih =>
    rw [splitLines_lf_cons, join_cons_of_ne_nil _ _ _ (splitLines_ne_nil _)]
    simp only [List.nil_append, List.singleton_append, List.length_cons] at ih ⊢
    omega
  | case5 c d rest h1 h2 ih =>
    have e : splitLines (c :: d :: rest) = [] :: splitLines rest := by
      simp [splitLines, h1, h2]
    rw [e, join_cons_of_ne_nil _ _ _ (splitLines_ne_nil _)]
    simp only [List.nil_append, List.singleton_append, List.length_cons]
    omega
  | case6 c d rest h1 h2 hs ih => exact absurd hs (splitLines_ne_nil _)
  | case7 c d rest h1 h2 l ls hs ih =>
    have e : splitLines (c :: d :: rest) = (c :: l) :: ls := by
      simp [splitLines, h1, h2, hs]
    rw [e]
    rw [hs] at ih
    rw [join_length_cons] at ih ⊢
    simp only [List.length_cons] at ih ⊢
    omega

/-! ## `fetchText` -/

theorem fetchText_full (raw : Str) : fetchText raw true = { body := raw, truncated := false } :=
  rfl

theorem fetchText_body (raw : Str) :
    (fetchText raw false).body
      = (join ['\n'] ((splitLines raw).take PREVIEW_LINE_LIMIT)).take PREVIEW_CHAR_LIMIT := by
  unfold fetchText
  simp only [Bool.false_eq_true, if_false, slice_zero]
  by_cases h : (join ['\n'] ((splitLines raw).take PREVIEW_LINE_LIMIT)).length > PREVIEW_CHAR_LIMIT
  · simp only [h, if_true]
  · simp only [h, if_false]
    exact (List.take_of_length_le (Nat.le_of_not_gt h)).symm

theorem fetchText_truncated_of_cut (raw : Str)
    (h : (splitLines raw).length > PREVIEW_LINE_LIMIT
      ∨ (join ['\n'] ((splitLines raw).take PREVIEW_LINE_LIMIT)).length > PREVIEW_CHAR_LIMIT) :
    (fetchText raw false).truncated = true := by
  unfold fetchText
  simp only [Bool.false_eq_true, if_false, slice_zero, Bool.or_eq_true, decide_eq_true_eq]
  rcases h with h | h
  · exact Or.inr h
  · left
    simp only [h, if_true, List.length_take]
    have h1 := join_take_length_le ['\n'] (splitLines raw) PREVIEW_LINE_LIMIT
    have h2 := join_splitLines_length_le raw
    omega

theorem fetchText_body_of_small (raw : Str)
    (hlines : (splitLines raw).length ≤ PREVIEW_LINE_LIMIT)
    (hchars : (join ['\n'] (splitLines raw)).length ≤ PREVIEW_CHAR_LIMIT) :
    (fetchText raw false).body = join ['\n'] (splitLines raw) := by
  rw [fetchText_body, List.take_of_length_le hlines, List.take_of_length_le hchars]

/-- C5 at the failing input: the two-line file `a`, CR, LF, `b`.  It has two
lines and its lines joined with a line feed have three characters, so neither the
120-line limit nor the 8000-character limit cuts anything and the body holds both
lines whole; `fetchText` still answers `truncated = true`, because the body is
one character shorter than the raw text once the CR LF has become a line feed. -/
theorem fetchText_crlf_truncated :
    fetchText "a\r\nb".toList false = { body := "a\nb".toList, truncated := true } ∧
    splitLines "a\r\nb".toList = ["a".toList, "b".toList] ∧
    (splitLines "a\r\nb".toList).length ≤ PREVIEW_LINE_LIMIT ∧
    (join ['\n'] (splitLines "a\r\nb".toList)).length ≤ PREVIEW_CHAR_LIMIT := by
  decide

/-! ## Table previews -/

theorem renderTablePreview_full (csvText : Str) (delimiter : Char) :
    renderTablePreview csvText delimiter true
      = { rows := (tableLines csvText).map (fun r => (split delimiter r).take TABLE_COL_LIMIT)
          note := false } := by
  simp [renderTablePreview, slice_zero]

theorem renderTablePreview_limited (csvText : Str) (delimiter : Char) :
    renderTablePreview csvText delimiter false
      = { rows := ((tableLines csvText).take TABLE_ROW_LIMIT).map
            (fun r => (split delimiter r).take TABLE_COL_LIMIT)
          note := decide ((tableLines csvText).length > TABLE_ROW_LIMIT) } := by
  unfold renderTablePreview
  simp only [Bool.false_eq_true, if_false, slice_zero, Bool.not_false, Bool.true_and]
  congr 1
  · congr 1
    rcases Nat.le_total TABLE_ROW_LIMIT (tableLines csvText).length with h | h
    · rw [Nat.min_eq_left h]
    · rw [Nat.min_eq_right h, List.take_of_length_le h, List.take_of_length_le (le_refl _)]
  · rw [Bool.eq_iff_iff, decide_eq_true_eq, decide_eq_true_eq]
    omega

theorem tableLines_body_of_small (raw : Str)
    (hlines : (splitLines raw).length ≤ PREVIEW_LINE_LIMIT)
    (hchars : (join ['\n'] (splitLines raw)).length ≤ PREVIEW_CHAR_LIMIT)
    (hcr : ∀ l ∈ splitLines raw, l.getLast? ≠ some '\r') :
    tableLines (fetchText raw false).body = tableLines raw := by
  rw [fetchText_body_of_small raw hlines hchars]
  unfold tableLines
  rw [splitLines_join _ (splitLines_ne_nil raw)
    (fun l hl => ⟨mem_splitLines_no_lf raw l hl, hcr l hl⟩)]

/-- C6 at the failing input: the one-line CSV `1,2,3,4,5,6,7,8,9,10,11` previewed
with `state.showAll = true`.  The line has eleven comma-separated fields; the
full preview has one row for it (every full preview has one row for every
non-blank line and no note) but only ten cells: the eleventh field is dropped,
because `slice(0, TABLE_COL_LIMIT)` is applied whether or not `full` is set. -/
theorem previewTable_full_drops_column :
    (previewTable "t.csv".toList "1,2,3,4,5,6,7,8,9,10,11".toList true).rows
      = [["1".toList, "2".toList, "3".toList, "4".toList, "5".toList, "6".toList,
          "7".toList, "8".toList, "9".toList, "10".toList]] ∧
    (split ',' "1,2,3,4,5,6,7,8,9,10,11".toList).length = 11 ∧
    tableLines "1,2,3,4,5,6,7,8,9,10,11".toList = ["1,2,3,4,5,6,7,8,9,10,11".toList] ∧
    (∀ path raw : Str,
      (previewTable path raw true).rows
        = (tableLines raw).map (fun r => (split (delimiterOf path) r).take TABLE_COL_LIMIT) ∧
      (previewTable path raw true).rows.length = (tableLines raw).length ∧
      (previewTable path raw true).note = false) := by
  refine ⟨by decide, by decide, by decide, ?_⟩
  intro path raw
  have h : previewTable path raw true = renderTablePreview raw (delimiterOf path) true := rfl
  rw [h, renderTablePreview_full]
  simp

set_option maxRecDepth 100000 in
/-- C7, as stated, fails: a table file of 120 empty lines followed by the line
`a,b` has one non-blank line, but the non-full preview is built from the body
`fetchText` returns, the first 120 lines, so it shows no row at all instead of
`min 20 1 = 1`. -/
theorem previewTable_after_blank_lines :
    (tableLines (List.replicate 120 '\n' ++ "a,b".toList)).length = 1 ∧
    (previewTable "t.csv".toList (List.replicate 120 '\n' ++ "a,b".toList) false).rows = [] ∧
    (previewTable "t.csv".toList (List.replicate 120 '\n' ++ "a,b".toList) false).rows.length
      ≠ min TABLE_ROW_LIMIT (tableLines (List.replicate 120 '\n' ++ "a,b".toList)).length := by
  decide

/-! ## Lines of a cut text -/

theorem trim_eq_nil_iff (l : Str) : trim l = [] ↔ ∀ c ∈ l, isTrimChar c = true := by
  unfold trim
  rw [List.reverse_eq_nil_iff, List.dropWhile_eq_nil_iff]
  constructor
  · intro h
    have hnil : l.dropWhile isTrimChar = [] := by
      by_contra hne
      have hpos : 0 < (l.dropWhile isTrimChar).length := List.length_pos.2 hne
      have h1 := List.dropWhile_get_zero_not isTrimChar l hpos
      apply h1
      apply h
      rw [List.mem_reverse]
      exact List.get_mem _ _ _
    exact List.dropWhile_eq_nil_iff.1 hnil
  · intro h c hc
    rw [List.mem_reverse] at hc
    have : l.dropWhile isTrimChar = [] := List.dropWhile_eq_nil_iff.2 h
    rw [this] at hc
    exact absurd hc (List.not_mem_nil _)

theorem nonBlank_iff (l : Str) : nonBlank l = true ↔ ∃ c ∈ l, isTrimChar c = false := by
  unfold nonBlank
  rw [decide_eq_true_eq, Ne, List.length_eq_zero, trim_eq_nil_iff]
  push_neg
  simp

theorem nonBlank_of_prefix (p l : Str) (h : p <+: l) (hp : nonBlank p = true) :
    nonBlank l = true := by
  rw [nonBlank_iff] at hp ⊢
  obtain ⟨c, hc, hcc⟩ := hp
  exact ⟨c, h.subset hc, hcc⟩

theorem stripCR_eq_or (l : Str) :
    stripCR l = l ∨ (l.getLast? = some '\r' ∧ stripCR l = l.dropLast) := by
  unfold stripCR
  by_cases h : l.getLast? = some '\r'
  · right; simp [h]
  · left; simp [h]

theorem nonBlank_stripCR (l : Str) : nonBlank (stripCR l) = nonBlank l := by
  rcases stripCR_eq_or l with h | ⟨hlast, h⟩
  · rw [h]
  · rw [h, Bool.eq_iff_iff, nonBlank_iff, nonBlank_iff]
    have hl : l = l.dropLast ++ ['\r'] := by
      have := List.dropLast_append_getLast? '\r' (by simpa using hlast)
      exact this.symm
    constructor
    · rintro ⟨c, hc, hcc⟩
      exact ⟨c, (List.dropLast_subset l) hc, hcc⟩
    · rintro ⟨c, hc, hcc⟩
      rw [hl] at hc
      rcases List.mem_append.1 hc with hc | hc
      · exact ⟨c, hc, hcc⟩
      · rw [List.mem_singleton] at hc
        subst hc
        exact absurd hcc (by decide)

theorem stripCR_cons_cons (c d : Char) (rest : Str) :
    stripCR (c :: d :: rest) = c :: stripCR (d :: rest) := by
  unfold stripCR
  rw [List.getLast?_cons_cons]
  split_ifs <;> simp

theorem splitLines_append_lf_strip (l s : Str) (h : '\n' ∉ l) :
    splitLines (l ++ '\n' :: s) = stripCR l :: splitLines s := by
  induction l using splitLines.induct with
  | case1 => simpa [stripCR] using splitLines_lf_cons s
  | case2 => exact absurd (List.mem_singleton_self _) h
  | case3 c hc =>
    by_cases hr : c = '\r'
    · subst hr
      simp [splitLines, stripCR]
    · simp [splitLines, hc, hr, splitLines_lf_cons, stripCR]
  | case4 d rest ih => exact absurd (List.mem_cons_self _ _) h
  | case5 c d rest h1 h2 ih => exact absurd (by simp [h2.2]) h
  | case6 c d rest h1 h2 hs ih => exact absurd hs (splitLines_ne_nil _)
  | case7 c d rest h1 h2 l ls hs ih =>
    have hrest : '\n' ∉ d :: rest := fun e => h (List.mem_cons_of_mem _ e)
    have := ih hrest
    simp only [List.cons_append] at this ⊢
    simp [splitLines, h1, h2, this, stripCR_cons_cons]

theorem splitLines_join_append (K : List Str) (hK : ∀ l ∈ K, '\n' ∉ l) (hne : K ≠ [])
    (t : Str) :
    splitLines (join ['\n'] K ++ '\n' :: t) = K.map stripCR ++ splitLines t := by
  induction K with
  | nil => exact absurd rfl hne
  | cons a rest ih =>
    have ha := hK a (List.mem_cons_self _ _)
    cases rest with
    | nil =>
      rw [join_singleton]
      simpa using splitLines_append_lf_strip a t ha
    | cons b rest =>
      have e : join ['\n'] (a :: b :: rest) ++ '\n' :: t
          = a ++ '\n' :: (join ['\n'] (b :: rest) ++ '\n' :: t) := by
        rw [join_cons_cons]
        simp
      rw [e, splitLines_append_lf_strip a _ ha,
        ih (fun l hl => hK l (List.mem_cons_of_mem _ hl)) (by simp)]
      simp

theorem splitLines_join_rel (K : List Str) (hK : ∀ l ∈ K, '\n' ∉ l) (hne : K ≠ []) :
    List.Forall₂ (fun a b : Str => b = a ∨ (a.getLast? = some '\r' ∧ b = a.dropLast))
      K (splitLines (join ['\n'] K)) := by
  induction K with
  | nil => exact absurd rfl hne
  | cons a rest ih =>
    have ha := hK a (List.mem_cons_self _ _)
    cases rest with
    | nil =>
      rw [join_singleton, splitLines_of_no_lf a ha]
      exact List.Forall₂.cons (Or.inl rfl) List.Forall₂.nil
    | cons b rest =>
      rw [join_cons_cons]
      simp only [List.append_assoc, List.singleton_append]
      rw [splitLines_append_lf_strip a _ ha]
      refine List.Forall₂.cons ?_ (ih (fun l hl => hK l (List.mem_cons_of_mem _ hl)) (by simp))
      rcases stripCR_eq_or a with h | h
      · exact Or.inl h
      · exact Or.inr h

theorem forall₂_map_stripCR (K : List Str) :
    List.Forall₂ (fun a b : Str => b = a ∨ (a.getLast? = some '\r' ∧ b = a.dropLast))
      K (K.map stripCR) := by
  induction K with
  | nil => exact List.Forall₂.nil
  | cons a rest ih =>
    refine List.Forall₂.cons ?_ ih
    rcases stripCR_eq_or a with h | h
    · exact Or.inl h
    · exact Or.inr h

theorem join_append (sep : Str) (K R : List Str) (hK : K ≠ []) (hR : R ≠ []) :
    join sep (K ++ R) = join sep K ++ sep ++ join sep R := by
  induction K with
  | nil => exact absurd rfl hK
  | cons a rest ih =>
    cases rest with
    | nil =>
      rw [join_singleton]
      exact join_cons_of_ne_nil sep a R hR
    | cons b rest =>
      have hne : b :: rest ++ R ≠ [] := by simp
      rw [List.cons_append, join_cons_of_ne_nil sep a _ hne, ih (by simp), join_cons_cons]
      simp [List.append_assoc]

/-- The lines of a text cut after `m` characters, when its first `k` lines fit in
the `m` characters: those `k` lines, each as it is or less the carriage return
ending it, then what the rest of the cut gives; nothing more when the text has
only those `k` lines. -/
theorem splitLines_cut (Ls : List Str) (hLs : ∀ l ∈ Ls, '\n' ∉ l) (k m : Nat) (hk : 1 ≤ k)
    (hne : Ls ≠ []) (hfit : (join ['\n'] (Ls.take k)).length ≤ m) :
    ∃ K X : List Str,
      List.Forall₂ (fun a b : Str => b = a ∨ (a.getLast? = some '\r' ∧ b = a.dropLast))
        (Ls.take k) K ∧
      splitLines ((join ['\n'] Ls).take m) = K ++ X ∧
      (Ls.length ≤ k → X = []) := by
  have hKne : Ls.take k ≠ [] := by
    cases Ls with
    | nil => exact absurd rfl hne
    | cons a rest =>
      obtain ⟨j, rfl⟩ : ∃ j, k = j + 1 := ⟨k - 1, by omega⟩
      simp
  have hKlf : ∀ l ∈ Ls.take k, '\n' ∉ l := fun l hl => hLs l (List.mem_of_mem_take hl)
  rcases Nat.lt_or_ge k Ls.length with hlt | hge
  · have hRne : Ls.drop k ≠ [] := by
      intro h
      have := congrArg List.length h
      simp at this
      omega
    have hsplit : join ['\n'] Ls
        = join ['\n'] (Ls.take k) ++ '\n' :: join ['\n'] (Ls.drop k) := by
      conv_lhs => rw [← List.take_append_drop k Ls]
      rw [join_append _ _ _ hKne hRne]
      simp
    rw [hsplit, List.take_append_eq_append_take, List.take_of_length_le hfit]
    rcases Nat.eq_zero_or_pos (m - (join ['\n'] (Ls.take k)).length) with h0 | hpos
    · refine ⟨splitLines (join ['\n'] (Ls.take k)), [], splitLines_join_rel _ hKlf hKne, ?_, ?_⟩
      · rw [h0]; simp
      · intro _; rfl
    · obtain ⟨j, hj⟩ : ∃ j, m - (join ['\n'] (Ls.take k)).length = j + 1 :=
        ⟨m - (join ['\n'] (Ls.take k)).length - 1, by omega⟩
      refine ⟨(Ls.take k).map stripCR, splitLines ((join ['\n'] (Ls.drop k)).take j),
        forall₂_map_stripCR _, ?_, ?_⟩
      · rw [hj, List.take_succ_cons, splitLines_join_append _ hKlf hKne]
      · intro h; omega
  · have hall : Ls.take k = Ls := List.take_of_length_le hge
    rw [hall] at hfit
    refine ⟨splitLines (join ['\n'] Ls), [], ?_, ?_, ?_⟩
    · rw [hall]
      exact splitLines_join_rel Ls hLs hne
    · rw [List.take_of_length_le hfit]; simp
    · intro _; rfl

theorem length_filter_cons {α : Type} (p : α → Bool) (a : α) (l : List α) :
    ((a :: l).filter p).length = (if p a = true then 1 else 0) + (l.filter p).length := by
  rw [List.filter_cons]
  split_ifs
  · simp only [List.length_cons]; omega
  · omega

/-- Cutting a text never adds a non-blank line. -/
theorem nonBlank_lines_cut_le (Ls : List Str) (hLs : ∀ l ∈ Ls, '\n' ∉ l) :
    ∀ m : Nat, ((splitLines ((join ['\n'] Ls).take m)).filter nonBlank).length
      ≤ (Ls.filter nonBlank).length := by
  induction Ls with
  | nil => intro m; simp [join, List.intercalate, splitLines, nonBlank, trim]
  | cons a rest ih =>
    intro m
    have ha := hLs a (List.mem_cons_self _ _)
    have hpre : ∀ j : Nat, ((splitLines (a.take j)).filter nonBlank).length
        ≤ ([a].filter nonBlank).length := by
      intro j
      have hlf : '\n' ∉ a.take j := fun h => ha (List.mem_of_mem_take h)
      rw [splitLines_of_no_lf _ hlf]
      by_cases hp : nonBlank (a.take j) = true
      · have := nonBlank_of_prefix _ _ (List.take_prefix j a) hp
        simp [hp, this]
      · simp [hp]
    cases rest with
    | nil =>
      rw [join_singleton]
      exact hpre m
    | cons b rest =>
      rw [join_cons_cons]
      simp only [List.append_assoc, List.singleton_append]
      rw [List.take_append_eq_append_take]
      rcases Nat.eq_zero_or_pos (m - a.length) with h0 | hpos
      · rw [h0]
        simp only [List.take_zero, List.append_nil]
        refine le_trans (hpre m) ?_
        rw [length_filter_cons, length_filter_cons nonBlank a (b :: rest)]
        simp
      · obtain ⟨j, hj⟩ : ∃ j, m - a.length = j + 1 := ⟨m - a.length - 1, by omega⟩
        have hm : a.length ≤ m := by omega
        rw [hj, List.take_succ_cons, List.take_of_length_le hm,
          splitLines_append_lf_strip a _ ha]
        have := ih (fun l hl => hLs l (List.mem_cons_of_mem _ hl)) j
        rw [length_filter_cons, length_filter_cons nonBlank a (b :: rest), nonBlank_stripCR]
        omega

theorem forall₂_filter_nonBlank (K K' : List Str)
    (h : List.Forall₂ (fun a b : Str => b = a ∨ (a.getLast? = some '\r' ∧ b = a.dropLast))
      K K') :
    List.Forall₂ (fun a b : Str => b = a ∨ (a.getLast? = some '\r' ∧ b = a.dropLast))
      (K.filter nonBlank) (K'.filter nonBlank) := by
  induction h with
  | nil => exact List.Forall₂.nil
  | @cons a b l₁ l₂ hab _ ih =>
    have hnb : nonBlank b = nonBlank a := by
      rcases hab with rfl | ⟨hlast, rfl⟩
      · rfl
      · have : stripCR a = a.dropLast := by simp [stripCR, hlast]
        rw [← this, nonBlank_stripCR]
    rw [List.filter_cons, List.filter_cons, hnb]
    split_ifs
    · exact List.Forall₂.cons hab ih
    · exact ih

theorem split_length (d : Char) (s : Str) : (split d s).length = s.count d + 1 := by
  induction s with
  | nil => simp [split]
  | cons c cs ih =>
    by_cases hc : c = d
    · subst hc
      simp [split, ih]
    · cases hs : split d cs with
      | nil => exact absurd hs (split_ne_nil d cs)
      | cons l ls =>
        rw [hs] at ih
        have hcd : (c == d) = false := by simpa using hc
        simp only [split, hc, if_false, hs, List.length_cons, List.count_cons, hcd] at ih ⊢
        simpa using ih

theorem split_length_dropLast (d : Char) (hd : d ≠ '\r') (a : Str)
    (hlast : a.getLast? = some '\r') :
    (split d a.dropLast).length = (split d a).length := by
  have ha : a = a.dropLast ++ ['\r'] :=
    (List.dropLast_append_getLast? '\r' (by simpa using hlast)).symm
  have hne : ('\r' == d) = false := by simpa using fun e : '\r' = d => hd e.symm
  rw [split_length, split_length]
  conv_rhs => rw [ha]
  rw [List.count_append]
  simp [List.count_cons, hne]

theorem delimiterOf_ne_cr (path : Str) : delimiterOf path ≠ '\r' := by
  unfold delimiterOf
  split_ifs <;> decide

/-- Rows built from the first 20 of the lines `F ++ X`, where the lines `F` are
the lines `N` up to carriage returns, show the lines `N` as the claim says, as
long as `X` is empty or `N` has 20 lines. -/
theorem showsRows_of_rel (d : Char) (hd : d ≠ '\r') (N F X : List Str)
    (hrel : List.Forall₂
      (fun a b : Str => b = a ∨ (a.getLast? = some '\r' ∧ b = a.dropLast)) N F)
    (hX : X = [] ∨ 20 ≤ N.length) :
    ShowsRows (((F ++ X).take TABLE_ROW_LIMIT).map
      (fun r => (split d r).take TABLE_COL_LIMIT)) d N := by
  have hlen : N.length = F.length := hrel.length_eq
  unfold ShowsRows
  simp only [TABLE_ROW_LIMIT, TABLE_COL_LIMIT, List.length_map, List.length_take,
    List.length_append]
  refine ⟨?_, ?_⟩
  · rcases hX with rfl | h
    · simp [hlen]
    · omega
  · intro i hi
    have hiN : i < N.length := by omega
    have hiF : i < F.length := by omega
    have hi20 : i < 20 := by omega
    have hR := (List.forall₂_iff_get.1 hrel).2 i hiN hiF
    refine ⟨N.get ⟨i, hiN⟩, (split d (F.get ⟨i, hiF⟩)).take 10, ?_, ?_, ?_, ?_⟩
    · exact List.getElem?_eq_getElem hiN
    · rw [List.getElem?_map, List.getElem?_take, if_pos hi20,
        List.getElem?_append_left hiF, List.getElem?_eq_getElem hiF]
      rfl
    · rw [List.length_take]
      rcases hR with h | ⟨hlast, h⟩
      · rw [h]
      · rw [h, split_length_dropLast d hd _ hlast]
    · rcases hR with h | ⟨hlast, h⟩
      · left; rw [h]
      · right; exact ⟨hlast, by rw [h]⟩

theorem showsRows_congr (rows : List (List Str)) (d : Char) (N N' : List Str)
    (h : ShowsRows rows d N) (hN : N.take 20 = N'.take 20) : ShowsRows rows d N' := by
  have hmin : min 20 N.length = min 20 N'.length := by
    have := congrArg List.length hN
    simpa [List.length_take] using this
  unfold ShowsRows at h ⊢
  simp only [TABLE_ROW_LIMIT] at h ⊢
  refine ⟨by rw [← hmin]; exact h.1, ?_⟩
  intro i hi
  rw [← hmin] at hi
  obtain ⟨line, cells, h1, h2⟩ := h.2 i hi
  refine ⟨line, cells, ?_, h2⟩
  have hi20 : i < 20 := by omega
  have e1 : (N.take 20)[i]? = N[i]? := by rw [List.getElem?_take, if_pos hi20]
  have e2 : (N'.take 20)[i]? = N'[i]? := by rw [List.getElem?_take, if_pos hi20]
  rw [← e2, ← hN, e1]
  exact h1

/-! ## The non-full table preview -/

theorem tableLines_body_length_le (raw : Str) :
    (tableLines (fetchText raw false).body).length ≤ (tableLines raw).length := by
  rw [fetchText_body]
  unfold tableLines
  have hW : ∀ l ∈ (splitLines raw).take PREVIEW_LINE_LIMIT, '\n' ∉ l :=
    fun l hl => mem_splitLines_no_lf raw l (List.mem_of_mem_take hl)
  refine le_trans (nonBlank_lines_cut_le _ hW PREVIEW_CHAR_LIMIT) ?_
  exact ((List.take_prefix _ _).filter nonBlank).length_le

theorem tableLines_body_cut (raw : Str) (k : Nat) (hk1 : 1 ≤ k) (hk : k ≤ PREVIEW_LINE_LIMIT)
    (hfit : (join ['\n'] ((splitLines raw).take k)).length ≤ PREVIEW_CHAR_LIMIT) :
    ∃ F X : List Str,
      List.Forall₂ (fun a b : Str => b = a ∨ (a.getLast? = some '\r' ∧ b = a.dropLast))
        (((splitLines raw).take k).filter nonBlank) F ∧
      tableLines (fetchText raw false).body = F ++ X ∧
      ((splitLines raw).length ≤ k ∨ k = PREVIEW_LINE_LIMIT → X = []) := by
  have hW : ∀ l ∈ (splitLines raw).take PREVIEW_LINE_LIMIT, '\n' ∉ l :=
    fun l hl => mem_splitLines_no_lf raw l (List.mem_of_mem_take hl)
  have hWne : (splitLines raw).take PREVIEW_LINE_LIMIT ≠ [] := by
    cases hs : splitLines raw with
    | nil => exact absurd hs (splitLines_ne_nil raw)
    | cons a rest => simp [PREVIEW_LINE_LIMIT]
  have htake : ((splitLines raw).take PREVIEW_LINE_LIMIT).take k = (splitLines raw).take k := by
    rw [List.take_take, Nat.min_eq_left hk]
  obtain ⟨K, X, hrel, hsplit, hX⟩ := splitLines_cut _ hW k PREVIEW_CHAR_LIMIT hk1 hWne
    (by rw [htake]; exact hfit)
  rw [htake] at hrel
  refine ⟨K.filter nonBlank, X.filter nonBlank, forall₂_filter_nonBlank _ _ hrel, ?_, ?_⟩
  · rw [fetchText_body]
    unfold tableLines
    rw [hsplit, List.filter_append]
  · intro h
    have hlen : ((splitLines raw).take PREVIEW_LINE_LIMIT).length ≤ k := by
      rw [List.length_take]
      rcases h with h | h
      · exact le_trans (Nat.min_le_right _ _) h
      · rw [h]; exact Nat.min_le_left _ _
    rw [hX hlen]
    rfl

/-- C7, amended: for every table file content with `R` non-blank lines, the
non-full preview never shows more than `min 20 R` rows and shows the truncation
note only if `R > 20`.  Whenever the first `k <= 120` lines of the content, joined
with line feeds, fit in 8000 characters: if the content has no more than those
`k` lines or at least 20 of them are non-blank, the preview shows exactly
`min 20 R` rows, row `i` holding the first `min 10 (field count)` fields of the
`i`-th non-blank line (less a carriage return that ends the line); if the content
has no more than those `k` lines or more than 20 of them are non-blank, the note
is shown if and only if `R > 20`; and for `k = 120` the rows shown are, in the
same way, the first 20 non-blank lines among the first 120 lines. -/
theorem previewTable_spec (path raw : Str) :
    (previewTable path raw false).rows.length ≤ min 20 (tableLines raw).length ∧
    ((previewTable path raw false).note = true → (tableLines raw).length > 20) ∧
    ∀ k : Nat, k ≤ 120 → (join ['\n'] ((splitLines raw).take k)).length ≤ 8000 →
      (((splitLines raw).length ≤ k ∨ 20 ≤ (((splitLines raw).take k).filter nonBlank).length) →
        ShowsRows (previewTable path raw false).rows (delimiterOf path) (tableLines raw)) ∧
      (((splitLines raw).length ≤ k ∨ 20 < (((splitLines raw).take k).filter nonBlank).length) →
        ((previewTable path raw false).note = true ↔ (tableLines raw).length > 20)) ∧
      (k = 120 →
        ShowsRows (previewTable path raw false).rows (delimiterOf path)
          (((splitLines raw).take 120).filter nonBlank)) := by
  have h : previewTable path raw false
      = renderTablePreview (fetchText raw false).body (delimiterOf path) false := rfl
  rw [h, renderTablePreview_limited]
  have hle := tableLines_body_length_le raw
  have hpre : ∀ k : Nat, ((splitLines raw).take k).filter nonBlank <+: tableLines raw :=
    fun k => (List.take_prefix k (splitLines raw)).filter nonBlank
  refine ⟨?_, ?_, ?_⟩
  · simp only [List.length_map, List.length_take, TABLE_ROW_LIMIT]
    omega
  · simp only [decide_eq_true_eq, TABLE_ROW_LIMIT]
    omega
  · intro k hk hfit
    rcases Nat.eq_zero_or_pos k with h0 | hk1
    · subst h0
      have hpos : 0 < (splitLines raw).length := List.length_pos.2 (splitLines_ne_nil raw)
      refine ⟨?_, ?_, ?_⟩
      · rintro (h1 | h1)
        · omega
        · simp at h1
      · rintro (h1 | h1)
        · omega
        · simp at h1
      · intro h1; omega
    · obtain ⟨F, X, hrel, hbody, hX⟩ := tableLines_body_cut raw k hk1 hk hfit
      have hFlen := hrel.length_eq
      have hklen := (hpre k).length_le
      rw [hbody]
      refine ⟨?_, ?_, ?_⟩
      · intro hcase
        have hshow := showsRows_of_rel (delimiterOf path) (delimiterOf_ne_cr path) _ F X hrel
          (by
            rcases hcase with h1 | h1
            · exact Or.inl (hX (Or.inl h1))
            · exact Or.inr h1)
        apply showsRows_congr _ _ _ _ hshow
        rcases hcase with h1 | h1
        · rw [List.take_of_length_le h1]
          rfl
        · have e := List.prefix_iff_eq_take.1 (hpre k)
          conv_lhs => rw [e]
          rw [List.take_take, Nat.min_eq_left h1]
      · intro hcase
        simp only [decide_eq_true_eq, TABLE_ROW_LIMIT, List.length_append]
        rcases hcase with h1 | h1
        · have hXnil := hX (Or.inl h1)
          have hall : ((splitLines raw).take k).filter nonBlank = tableLines raw := by
            rw [List.take_of_length_le h1]
            rfl
          rw [hall] at hFlen
          rw [hXnil]
          simp only [List.length_nil, Nat.add_zero]
          rw [hFlen]
        · constructor
          · intro _; omega
          · intro _; omega
      · intro h120
        subst h120
        exact showsRows_of_rel (delimiterOf path) (delimiterOf_ne_cr path) _ F X hrel
          (Or.inl (hX (Or.inr rfl)))

set_option maxRecDepth 100000 in
/-- The amended C7 on the CSV of 30 rows of 15 columns, whose 30 lines fit in
8000 characters: 20 rows of 10 columns and the note. -/
theorem previewTable_spec_witness :
    (30 ≤ 120 ∧ (join ['\n'] ((splitLines sampleCsv).take 30)).length ≤ 8000 ∧
      (splitLines sampleCsv).length ≤ 30) ∧
    (tableLines sampleCsv).length = 30 ∧
    ShowsRows (previewTable "t.csv".toList sampleCsv false).rows (delimiterOf "t.csv".toList)
      (tableLines sampleCsv) ∧
    ((previewTable "t.csv".toList sampleCsv false).note = true
      ↔ (tableLines sampleCsv).length > 20) ∧
    previewTable "t.csv".toList sampleCsv false
      = { rows := List.replicate 20 (List.replicate 10 ['x']), note := true } :=
  ⟨by decide, by decide,
    ((previewTable_spec "t.csv".toList sampleCsv).2.2 30 (by decide) (by decide)).1
      (Or.inl (by decide)),
    ((previewTable_spec "t.csv".toList sampleCsv).2.2 30 (by decide) (by decide)).2.1
      (Or.inl (by decide)),
    by decide⟩

end AssetBrowser
